import Mathlib

/-!
Shallow embedding of the directed weighted graph core of `complexCode.js`
(class `Graph` and class `BinaryHeap`), together with proofs about it.

JavaScript `Map`s are modelled as insertion-ordered association lists:
`set` on an existing key overwrites the value in place, `set` on a fresh key
appends at the end, `delete` removes the entry, and iteration follows the
list order — exactly the observable behaviour of a JS `Map`.

JavaScript numbers are modelled by an arbitrary linearly ordered additive
commutative monoid `W` for (finite) edge weights — `ℚ` is the intended
idealisation of finite JS numbers, while witnesses instantiate `W := ℤ` so
that the kernel can evaluate the arithmetic — and by `WithTop W` for
tentative distances, where `⊤` plays the role of `Infinity` (`Infinity + w = Infinity`, and `Infinity < Infinity` is false,
matching JS).  A lookup of a missing key (`undefined` in JS) is `none`;
JS comparisons against `undefined`/`NaN` are false, which the embedding
reproduces by only relaxing when both lookups return `some`.

Loops whose termination is not structural (`while` loops in JS) are given
an explicit fuel argument that is provably (or, for the traversal, amply)
larger than the number of iterations the JS loop performs, so that every
definition stays executable by the kernel.
-/

namespace JsMap

variable {κ ν : Type} [DecidableEq κ]

/-- `Map.prototype.get`. -/
def get? : List (κ × ν) → κ → Option ν
  | [], _ => none
  | (k', v) :: rest, k => if k' = k then some v else get? rest k

/-- `Map.prototype.set`: overwrite in place, or append a fresh key. -/
def set : List (κ × ν) → κ → ν → List (κ × ν)
  | [], k, v => [(k, v)]
  | (k', v') :: rest, k, v =>
    if k' = k then (k, v) :: rest else (k', v') :: set rest k v

/-- `Map.prototype.delete`. -/
def del : List (κ × ν) → κ → List (κ × ν)
  | [], _ => []
  | (k', v') :: rest, k => if k' = k then rest else (k', v') :: del rest k

/-- `Map.prototype.has`. -/
def hasKey (m : List (κ × ν)) (k : κ) : Bool := (get? m k).isSome

theorem get?_set_self (m : List (κ × ν)) (k : κ) (v : ν) :
    get? (set m k v) k = some v := by
  induction m with
  | nil => simp [get?, set]
  | cons p rest ih =>
    by_cases h : p.1 = k <;> simp [get?, set, h, ih]

theorem get?_set_ne (m : List (κ × ν)) (k k' : κ) (v : ν) (h : k ≠ k') :
    get? (set m k v) k' = get? m k' := by
  induction m with
  | nil => simp [get?, set, h]
  | cons p rest ih =>
    by_cases hp : p.1 = k
    · subst hp; simp [get?, set, h]
    · by_cases hp' : p.1 = k' <;> simp [get?, set, hp, hp', Ne.symm h, ih]

theorem get?_set (m : List (κ × ν)) (k k' : κ) (v : ν) :
    get? (set m k v) k' = if k = k' then some v else get? m k' := by
  by_cases h : k = k'
  · subst h; simp [get?_set_self]
  · simp [h, get?_set_ne m k k' v h]

theorem hasKey_set_self (m : List (κ × ν)) (k : κ) (v : ν) :
    hasKey (set m k v) k = true := by
  simp [hasKey, get?_set_self]

theorem get?_mem {m : List (κ × ν)} {k : κ} {v : ν}
    (h : get? m k = some v) : (k, v) ∈ m := by
  induction m with
  | nil => simp [get?] at h
  | cons p rest ih =>
    by_cases hp : p.1 = k
    · simp [get?, hp] at h
      cases p
      simp_all
    · simp [get?, hp] at h
      exact List.mem_cons_of_mem _ (ih h)

theorem hasKey_of_mem {m : List (κ × ν)} {k : κ} {v : ν}
    (h : (k, v) ∈ m) : hasKey m k = true := by
  induction m with
  | nil => simp at h
  | cons p rest ih =>
    rcases List.mem_cons.mp h with h1 | h2
    · subst h1; simp [hasKey, get?]
    · by_cases hp : p.1 = k
      · simp [hasKey, get?, hp]
      · simpa [hasKey, get?, hp] using ih h2

theorem get?_isSome_iff_mem {m : List (κ × ν)} {k : κ} :
    (get? m k).isSome = true ↔ ∃ v, (k, v) ∈ m := by
  constructor
  · intro h
    rcases Option.isSome_iff_exists.mp h with ⟨v, hv⟩
    exact ⟨v, get?_mem hv⟩
  · rintro ⟨v, hv⟩
    have := hasKey_of_mem hv
    simpa [hasKey] using this

theorem get?_del_ne (m : List (κ × ν)) (k k' : κ) (h : k ≠ k') :
    get? (del m k) k' = get? m k' := by
  induction m with
  | nil => simp [get?, del]
  | cons p rest ih =>
    by_cases hp : p.1 = k
    · subst hp; simp [get?, del, h]
    · by_cases hp' : p.1 = k' <;> simp [get?, del, hp, hp', Ne.symm h, ih]

end JsMap

/-- An edge object `{ from, to, weight }` (field `from` is a Lean keyword,
so it is rendered `source`; `to` is rendered `target`). -/
structure Edge (W : Type) where
  source : String
  target : String
  weight : W
deriving DecidableEq

/-- The per-node record `{ value, edges }`; `edges` is the node's own map
keyed by edge object identity, modelled as the list of edge records in
insertion order. -/
structure NodeData (W α : Type) where
  value : α
  edges : List (Edge W)
deriving DecidableEq

/-- The `Graph` class: `this.nodes` and `this.edges`. -/
structure Graph (W α : Type) where
  nodes : List (String × NodeData W α)
  edges : List (String × List (String × Edge W))
deriving DecidableEq

/-- The errors thrown by the JS code, one constructor per `throw` site. -/
inductive GraphError where
  /-- `"Invalid node(s)."` in `addEdge`. -/
  | invalidNodes
  /-- `"Invalid start and/or end node."` in `findShortestPath`. -/
  | invalidStartEnd
  /-- `"No path found."` in `findShortestPath`. -/
  | noPathFound
  /-- `"Invalid node."` in `getAllConnectedNodes`. -/
  | invalidNode
deriving DecidableEq

namespace Graph

variable {W α : Type} [LinearOrderedAddCommMonoid W]

def empty : Graph W α := ⟨[], []⟩

/-- `addNode(nodeId, value)`. -/
def addNode (g : Graph W α) (nodeId : String) (value : α) : Graph W α :=
  if JsMap.hasKey g.nodes nodeId then g
  else { g with nodes := JsMap.set g.nodes nodeId ⟨value, []⟩ }

/-- `removeNode(nodeId)`: deletes the node, then deletes
`edges.get(e.from).get(e.to)` for every edge object in the node's own
`edges` map.  Those objects all have `e.from = nodeId`, so only outgoing
edges are scrubbed. -/
def removeNode (g : Graph W α) (nodeId : String) : Graph W α :=
  match JsMap.get? g.nodes nodeId with
  | none => g
  | some node =>
    let nodes1 := JsMap.del g.nodes nodeId
    let edges1 := node.edges.foldl (fun es e =>
      match JsMap.get? es e.source with
      | some inner => JsMap.set es e.source (JsMap.del inner e.target)
      | none => es) g.edges
    { nodes := nodes1, edges := edges1 }

/-- The graph produced by the non-throwing branch of `addEdge`. -/
def addEdgeGraph (g : Graph W α) (source target : String) (weight : W) : Graph W α :=
  let edge : Edge W := ⟨source, target, weight⟩
  let edges1 :=
    match JsMap.get? g.edges source with
    | none => JsMap.set g.edges source [(target, edge)]
    | some inner => JsMap.set g.edges source (JsMap.set inner target edge)
  let nodes1 :=
    match JsMap.get? g.nodes source with
    | some nd => JsMap.set g.nodes source { nd with edges := nd.edges ++ [edge] }
    | none => g.nodes
  { nodes := nodes1, edges := edges1 }

/-- `addEdge(from, to, weight)`. -/
def addEdge (g : Graph W α) (source target : String) (weight : W) :
    Except GraphError (Graph W α) :=
  if !(JsMap.hasKey g.nodes source) || !(JsMap.hasKey g.nodes target) then
    .error .invalidNodes
  else
    .ok (addEdgeGraph g source target weight)

/-- `removeEdge(from, to)`. -/
def removeEdge [DecidableEq W] (g : Graph W α) (source target : String) : Graph W α :=
  if !(JsMap.hasKey g.nodes source) || !(JsMap.hasKey g.nodes target) then g
  else
    match (JsMap.get? g.edges source).bind (fun inner => JsMap.get? inner target) with
    | none => g
    | some edge =>
      let edges1 :=
        match JsMap.get? g.edges source with
        | some inner => JsMap.set g.edges source (JsMap.del inner target)
        | none => g.edges
      let nodes1 :=
        match JsMap.get? g.nodes source with
        | some nd => JsMap.set g.nodes source { nd with edges := nd.edges.erase edge }
        | none => g.nodes
      { nodes := nodes1, edges := edges1 }

/-- `this.edges.get(u)?.get(v)`: the single source of truth for edges. -/
def edgeAt (g : Graph W α) (u v : String) : Option (Edge W) :=
  match JsMap.get? g.edges u with
  | some inner => JsMap.get? inner v
  | none => none

end Graph

/-- A heap element `{ distance, node }`. -/
structure Entry (W : Type) where
  distance : WithTop W
  node : String
deriving DecidableEq

namespace BinaryHeap

variable {W : Type} [LinearOrderedAddCommMonoid W]

/-- `this.heap[i].distance`, with an (unused, always guarded) default. -/
def keyAt (h : List (Entry W)) (i : Nat) : WithTop W :=
  match h[i]? with
  | some e => e.distance
  | none => ⊤

/-- `[this.heap[i], this.heap[j]] = [this.heap[j], this.heap[i]]`. -/
def swapAt (h : List (Entry W)) (i j : Nat) : List (Entry W) :=
  match h[i]?, h[j]? with
  | some a, some b => (h.set i b).set j a
  | _, _ => h

/-- `bubbleUp`, with fuel; the JS `while` loop runs at most `i` times since
the index strictly decreases, so `bubbleUp` below passes fuel `i`. -/
def bubbleUpFuel : Nat → List (Entry W) → Nat → List (Entry W)
  | 0, h, _ => h
  | fuel + 1, h, i =>
    if i = 0 then h
    else
      let pi := (i - 1) / 2
      if keyAt h pi ≤ keyAt h i then h
      else bubbleUpFuel fuel (swapAt h i pi) pi

def bubbleUp (h : List (Entry W)) (i : Nat) : List (Entry W) := bubbleUpFuel i h i

/-- Index of the smallest key among `i` and its in-bounds children,
computed exactly as the two `if`s of the JS `bubbleDown` body do (the
intermediate `smallestIndex` variable is inlined, duplicating the
right-child test across the two branches). -/
def smallestIdx (h : List (Entry W)) (i : Nat) : Nat :=
  if 2 * i + 1 < h.length ∧ keyAt h (2 * i + 1) < keyAt h i then
    if 2 * i + 2 < h.length ∧ keyAt h (2 * i + 2) < keyAt h (2 * i + 1) then
      2 * i + 2
    else 2 * i + 1
  else
    if 2 * i + 2 < h.length ∧ keyAt h (2 * i + 2) < keyAt h i then
      2 * i + 2
    else i

/-- `bubbleDown`, with fuel; the JS `while` loop runs at most
`h.length - i` times since the index strictly increases. -/
def bubbleDownFuel : Nat → List (Entry W) → Nat → List (Entry W)
  | 0, h, _ => h
  | fuel + 1, h, i =>
    if h.length ≤ i then h
    else
      let s := smallestIdx h i
      if s = i then h
      else bubbleDownFuel fuel (swapAt h i s) s

def bubbleDown (h : List (Entry W)) (i : Nat) : List (Entry W) :=
  bubbleDownFuel h.length h i

/-- `insert(distance, node)`: push then bubble up from the last index. -/
def insert (h : List (Entry W)) (distance : WithTop W) (node : String) : List (Entry W) :=
  bubbleUp (h ++ [⟨distance, node⟩]) h.length

/-- `extractMin()`: `none` models the crash on an empty heap (the caller
always checks `isEmpty()` first). -/
def extractMin (h : List (Entry W)) : Option (String × List (Entry W)) :=
  match h with
  | [] => none
  | min :: rest =>
    match rest.getLast? with
    | none => some (min.node, [])
    | some last => some (min.node, bubbleDown (last :: rest.dropLast) 0)

/-- `updateDistance(node, distance)`: linear identity scan, then the
monotonicity guard `distance < this.heap[index].distance`. -/
def updateDistance (h : List (Entry W)) (node : String) (distance : WithTop W) :
    List (Entry W) :=
  match h.findIdx? (fun e => e.node == node) with
  | none => h
  | some i =>
    match h[i]? with
    | some e =>
      if distance < e.distance then
        bubbleUp (h.set i ⟨distance, node⟩) i
      else h
    | none => h

/-- `isEmpty()`. -/
def isEmpty (h : List (Entry W)) : Bool := h.length == 0

/-- Node components of the heap entries. -/
def nodesOf (h : List (Entry W)) : List String := h.map (·.node)

/-- The binary-heap order invariant: every non-root position carries a key
that is at least its parent's key. -/
def HeapOrdered (h : List (Entry W)) : Prop :=
  ∀ i < h.length, 0 < i → keyAt h ((i - 1) / 2) ≤ keyAt h i

instance (h : List (Entry W)) : Decidable (HeapOrdered h) :=
  inferInstanceAs (Decidable (∀ i, i < h.length → 0 < i → _ ≤ _))

end BinaryHeap

/-- The result `{ path, distance }` of `findShortestPath`.  `distance` is
`distances.get(end)`, which is an (always present in reachable states)
map lookup, hence an `Option`. -/
structure PathResult (W : Type) where
  path : List String
  distance : Option (WithTop W)
deriving DecidableEq

/-- The mutable locals of `findShortestPath`: `distances`, `previous` and
the fresh `BinaryHeap`. -/
structure DState (W : Type) where
  dist : List (String × WithTop W)
  prev : List (String × Option String)
  heap : List (Entry W)
deriving DecidableEq

namespace Graph

variable {W α : Type} [LinearOrderedAddCommMonoid W]

/-- The body of the initialization loop of `findShortestPath`: set the
node's tentative distance (`0` for `start`, `Infinity` otherwise), insert
it into the heap, and set its predecessor to `null`. -/
def initStep (start : String) (st : DState W) (kv : String × NodeData W α) :
    DState W :=
  if kv.1 = start then
    { dist := JsMap.set st.dist kv.1 0,
      prev := JsMap.set st.prev kv.1 none,
      heap := BinaryHeap.insert st.heap 0 kv.1 }
  else
    { dist := JsMap.set st.dist kv.1 ⊤,
      prev := JsMap.set st.prev kv.1 none,
      heap := BinaryHeap.insert st.heap ⊤ kv.1 }

/-- The initialization loop of `findShortestPath`, over all nodes. -/
def initState (g : Graph W α) (start : String) : DState W :=
  g.nodes.foldl (initStep start) ⟨[], [], []⟩

/-- One relaxation step, for a single `[to, edge]` entry of the neighbour
map.  JS computes `altDistance = distances.get(current) + edge.weight` and
tests `altDistance < distances.get(to)`; if either lookup is `undefined`
the comparison is false (NaN / undefined semantics), which the `match`
reproduces. -/
def relaxStep (current : String) (st : DState W) (p : String × Edge W) : DState W :=
  match JsMap.get? st.dist current, JsMap.get? st.dist p.1 with
  | some dc, some dt =>
    let alt := dc + (p.2.weight : WithTop W)
    if alt < dt then
      { dist := JsMap.set st.dist p.1 alt,
        prev := JsMap.set st.prev p.1 (some current),
        heap := BinaryHeap.updateDistance st.heap p.1 alt }
    else st
  | _, _ => st

/-- The `for (const [to, edge] of neighbors.entries())` loop. -/
def relaxNeighbors (g : Graph W α) (current : String) (st : DState W) : DState W :=
  match JsMap.get? g.edges current with
  | none => st
  | some nbrs => nbrs.foldl (relaxStep current) st

/-- The `while (node) { path.unshift(node); node = previous.get(node) }`
path reconstruction.  A `null`/`undefined` predecessor is `none`; the JS
truthiness test also stops on the empty string.  The fuel passed by
`findShortestPath` exceeds the chain length in every reachable state. -/
def buildPath (prev : List (String × Option String)) :
    Nat → Option String → List String → List String
  | _, none, acc => acc
  | 0, some _, acc => acc
  | fuel + 1, some n, acc =>
    if n = "" then acc
    else buildPath prev fuel ((JsMap.get? prev n).getD none) (n :: acc)

/-- The `while (!heap.isEmpty())` loop of Dijkstra's algorithm.  Each
iteration shrinks the heap by exactly one element, so the fuel passed by
`findShortestPath` (the initial heap size) makes the fuel-exhaustion
branch unreachable. -/
def dijkstraLoop (g : Graph W α) (endNode : String) :
    Nat → DState W → Except GraphError (PathResult W)
  | fuel, st =>
    match BinaryHeap.extractMin st.heap with
    | none => .error .noPathFound
    | some (current, heap1) =>
      if current = endNode then
        .ok { path := buildPath st.prev (st.prev.length + 1) (some endNode) [],
              distance := JsMap.get? st.dist endNode }
      else
        match fuel with
        | 0 => .error .noPathFound
        | fuel' + 1 =>
          dijkstraLoop g endNode fuel'
            (relaxNeighbors g current { st with heap := heap1 })

/-- `findShortestPath(start, end)`. -/
def findShortestPath (g : Graph W α) (start endNode : String) :
    Except GraphError (PathResult W) :=
  if !(JsMap.hasKey g.nodes start) || !(JsMap.hasKey g.nodes endNode) then
    .error .invalidStartEnd
  else
    let st := initState g start
    dijkstraLoop g endNode st.heap.length st

/-- The `while (stack.length > 0)` loop of `getAllConnectedNodes`.  The
stack is kept top-first (JS pushes/pops at the array's end). -/
def connectedLoop (g : Graph W α) :
    Nat → List String → List String → List String
  | 0, _, conn => conn
  | _ + 1, [], conn => conn
  | fuel + 1, current :: stack, conn =>
    let conn1 := if current ∈ conn then conn else conn ++ [current]
    let stack1 :=
      match JsMap.get? g.edges current with
      | none => stack
      | some nbrs => nbrs.foldl (fun st p => if p.1 ∈ conn1 then st else p.1 :: st) stack
    connectedLoop g fuel stack1 conn1

/-- `getAllConnectedNodes(nodeId)`.  The fuel amply bounds the number of
loop iterations of the JS code (each node is pushed at most once per
incoming edge plus once initially, and popped once per push). -/
def getAllConnectedNodes (g : Graph W α) (nodeId : String) :
    Except GraphError (List String) :=
  if !(JsMap.hasKey g.nodes nodeId) then .error .invalidNode
  else
    let total := (g.edges.map (fun p => p.2.length)).sum + g.nodes.length + 1
    .ok (connectedLoop g (total * total) [nodeId] [])

end Graph

/-- `addEdge` with the thrown error swallowed; a convenience for writing
down concrete graphs whose `addEdge` calls all succeed (as in the sample
usage at the bottom of the JS file). -/
def addEdgeD {W α : Type} [LinearOrderedAddCommMonoid W]
    (g : Graph W α) (source target : String) (weight : W) : Graph W α :=
  match Graph.addEdge g source target weight with
  | .ok g1 => g1
  | .error _ => g

/-- The sample graph of the JS file: nodes A, B, C, D with values
10, 20, 30, 40 and edges A→B(5), B→C(8), C→D(12), A→D(15). -/
def sampleGraph : Graph ℤ ℤ :=
  addEdgeD (addEdgeD (addEdgeD (addEdgeD
    (Graph.addNode (Graph.addNode (Graph.addNode (Graph.addNode Graph.empty
      "A" 10) "B" 20) "C" 30) "D" 40)
    "A" "B" 5) "B" "C" 8) "C" "D" 12) "A" "D" 15

/-- A two-node graph with the single edge A→B, for exercising `removeNode`
on the edge's target. -/
def gAB : Graph ℤ ℤ :=
  addEdgeD (Graph.addNode (Graph.addNode Graph.empty "A" 0) "B" 0) "A" "B" 1

/-- C1: the claim states that after `removeNode(n)` no edge has `n` as
source or target.  The code only scrubs edges keyed under the removed node
as source: removing `B` from the graph `A→B` leaves the adjacency index
still containing the edge `A→B` whose target `B` is absent from the node
registry, so the adjacency-consistency invariant is violated. -/
theorem c1_removeNode_leaves_dangling_incoming_edge :
    JsMap.hasKey (Graph.removeNode gAB "B").nodes "B" = false ∧
    Graph.edgeAt (Graph.removeNode gAB "B") "A" "B" = some ⟨"A", "B", 1⟩ :=
  ⟨rfl, rfl⟩

/-- A graph with two nodes and no edges, used to feed `addEdge` a negative
weight. -/
def gNeg : Graph ℤ ℤ := Graph.addNode (Graph.addNode Graph.empty "N1" 0) "N2" 0

/-- C2 counterexample: `addEdge` with both endpoints present and weight
`-1` does not fail with any error — it succeeds and stores the negative
edge, contradicting the claimed `InvalidWeight` rejection. -/
theorem c2_negative_weight_accepted :
    (Graph.addEdge gNeg "N1" "N2" (-1 : ℤ)).toOption.map
        (fun g2 => Graph.edgeAt g2 "N1" "N2") =
      some (some ⟨"N1", "N2", -1⟩) :=
  rfl

/-- C2 (amended): whenever both endpoints exist, `addEdge` succeeds for
every weight (negative included), inserting or overwriting the single
directed edge `(from, to)` with that weight and leaving every other
adjacency entry unchanged. -/
theorem c2_addEdge_present_endpoints_succeeds {W α : Type}
    [LinearOrderedAddCommMonoid W] (g : Graph W α)
    (f t : String) (w : W)
    (hf : JsMap.hasKey g.nodes f = true) (ht : JsMap.hasKey g.nodes t = true) :
    Graph.addEdge g f t w = .ok (Graph.addEdgeGraph g f t w) ∧
      Graph.edgeAt (Graph.addEdgeGraph g f t w) f t = some ⟨f, t, w⟩ ∧
      (∀ u v, u = f → v ≠ t →
        Graph.edgeAt (Graph.addEdgeGraph g f t w) u v = Graph.edgeAt g u v) ∧
      (∀ u v, u ≠ f →
        Graph.edgeAt (Graph.addEdgeGraph g f t w) u v = Graph.edgeAt g u v) := by
  refine ⟨?_, ?_, ?_, ?_⟩
  · rw [Graph.addEdge]
    simp [hf, ht]
  · rw [Graph.edgeAt, Graph.addEdgeGraph]
    cases hg : JsMap.get? g.edges f with
    | none => simp [hg, JsMap.get?_set_self, JsMap.get?]
    | some inner => simp [hg, JsMap.get?_set_self]
  · intro u v hu hv
    subst hu
    rw [Graph.edgeAt, Graph.edgeAt, Graph.addEdgeGraph]
    cases hg : JsMap.get? g.edges u with
    | none => simp [hg, JsMap.get?_set_self, JsMap.get?, Ne.symm hv]
    | some inner =>
      simp [hg, JsMap.get?_set_self, JsMap.get?_set_ne inner t v _ (Ne.symm hv)]
  · intro u v hu
    rw [Graph.edgeAt, Graph.edgeAt, Graph.addEdgeGraph]
    cases hg : JsMap.get? g.edges f with
    | none => simp [hg, JsMap.get?_set_ne g.edges f u _ (Ne.symm hu)]
    | some inner => simp [hg, JsMap.get?_set_ne g.edges f u _ (Ne.symm hu)]

/-- C2 witness: instantiating the amended theorem on a concrete graph. -/
theorem c2_addEdge_witness :
    Graph.addEdge gNeg "N1" "N2" (2 : ℤ) =
        .ok (Graph.addEdgeGraph gNeg "N1" "N2" (2 : ℤ)) ∧
      Graph.edgeAt (Graph.addEdgeGraph gNeg "N1" "N2" (2 : ℤ)) "N1" "N2" =
        some ⟨"N1", "N2", 2⟩ :=
  have h := c2_addEdge_present_endpoints_succeeds gNeg "N1" "N2" 2
    (by decide) (by decide)
  ⟨h.1, h.2.1⟩

/-- The sample graph after `removeNode("B")`. -/
def sampleGraphNoB : Graph ℤ ℤ := Graph.removeNode sampleGraph "B"

/-- C3: on the concrete sample graph after `removeNode(B)`,
`findShortestPath(A,D)` does return path `[A,D]` with distance `15`, but
`getAllConnectedNodes(A)` returns `[A, D, B]` — the removed node `B` is
still reported reachable, because the dangling edge `A→B` survives
`removeNode`.  The claimed result `{A, D}` is therefore wrong on the
connected-nodes half. -/
theorem c3_sample_scenario_after_removeNode :
    Graph.findShortestPath sampleGraphNoB "A" "D" =
        .ok ⟨["A", "D"], some ((15 : ℤ) : WithTop ℤ)⟩ ∧
      Graph.getAllConnectedNodes sampleGraphNoB "A" = .ok ["A", "D", "B"] ∧
      JsMap.hasKey sampleGraphNoB.nodes "B" = false ∧
      "B" ∈ ["A", "D", "B"] :=
  ⟨rfl, rfl, rfl, by decide⟩

/-- Two isolated nodes `P` and `Q`, no edges. -/
def gPQ : Graph ℤ ℤ := Graph.addNode (Graph.addNode Graph.empty "P" 0) "Q" 0

/-- C5: the claim (path is non-empty, begins with `start`, ends with `end`,
follows edges, and its weights sum to `distance`) fails: with `Q`
unreachable from `P`, `findShortestPath(P,Q)` still succeeds, returning the
path `[Q]` — which does not begin with the start node `P` and follows no
edge — with distance `Infinity`. -/
theorem c5_success_with_malformed_path :
    Graph.findShortestPath gPQ "P" "Q" = .ok ⟨["Q"], some ⊤⟩ ∧
      (["Q"] : List String).head? ≠ some "P" :=
  ⟨rfl, by decide⟩

/-- Two isolated nodes `X` and `Y`, no edges. -/
def gXY : Graph ℤ ℤ := Graph.addNode (Graph.addNode Graph.empty "X" 0) "Y" 0

/-- C6: the claim that an unreachable `end` yields `NoPathFound` fails:
every node — `end` included — is inserted into the queue, so `end` is
always extracted before the queue empties and the `"No path found."` throw
is dead code whenever both endpoints exist.  On two unconnected nodes the
call succeeds with path `[Y]` and distance `Infinity` instead of
failing. -/
theorem c6_unreachable_end_still_succeeds :
    Graph.findShortestPath gXY "X" "Y" = .ok ⟨["Y"], some ⊤⟩ ∧
      Graph.findShortestPath gXY "X" "Y" ≠ .error .noPathFound :=
  ⟨rfl, fun h =>
    Except.noConfusion ((rfl : Graph.findShortestPath gXY "X" "Y" =
      .ok ⟨["Y"], some ⊤⟩).symm.trans h)⟩

/-- Three successive `addNode` calls with the same key `A`. -/
def tripleAddNode : Graph ℤ ℕ :=
  Graph.addNode (Graph.addNode (Graph.addNode Graph.empty "A" 0) "A" 1) "A" 2

/-- C10 counterexample: on a graph that already holds `A ↦ 0`, calling
`addNode("A", 1)` and then `addNode("A", 2)` leaves the stored value `0`,
not `v1 = 1` as the claim states for every graph. -/
theorem c10_preexisting_key_keeps_old_value :
    (JsMap.get? tripleAddNode.nodes "A").map NodeData.value = some 0 ∧
      ((JsMap.get? tripleAddNode.nodes "A").map NodeData.value ≠ some 1) :=
  ⟨rfl, by decide⟩

/-- C10 (amended): when the key `n` is *absent*, `addNode(n, v1)` followed
by `addNode(n, v2)` stores `v1`; the second call is a complete no-op, the
first call changes no other node and no edges. -/
theorem c10_addNode_idempotent_insert {W α : Type}
    [LinearOrderedAddCommMonoid W] (g : Graph W α) (n : String)
    (v1 v2 : α) (h : JsMap.hasKey g.nodes n = false) :
    Graph.addNode (Graph.addNode g n v1) n v2 = Graph.addNode g n v1 ∧
      (JsMap.get? (Graph.addNode g n v1).nodes n).map NodeData.value = some v1 ∧
      (∀ m, m ≠ n → JsMap.get? (Graph.addNode g n v1).nodes m = JsMap.get? g.nodes m) ∧
      (Graph.addNode g n v1).edges = g.edges := by
  have h1 : Graph.addNode g n v1 = { g with nodes := JsMap.set g.nodes n ⟨v1, []⟩ } := by
    rw [Graph.addNode, h]
    simp
  refine ⟨?_, ?_, ?_, ?_⟩
  · rw [h1, Graph.addNode]
    simp [JsMap.hasKey_set_self]
  · rw [h1]
    simp [JsMap.get?_set_self]
  · intro m hm
    rw [h1]
    simpa using JsMap.get?_set_ne g.nodes n m _ (Ne.symm hm)
  · rw [h1]

/-- C10 witness: instantiating the amended theorem at a fresh key. -/
theorem c10_addNode_witness :
    Graph.addNode (Graph.addNode ((Graph.empty : Graph ℤ ℕ)) "Z" 5) "Z" 6 =
        Graph.addNode Graph.empty "Z" 5 ∧
      (JsMap.get? (Graph.addNode ((Graph.empty : Graph ℤ ℕ)) "Z" 5).nodes "Z").map
          NodeData.value = some 5 :=
  have h := c10_addNode_idempotent_insert ((Graph.empty : Graph ℤ ℕ)) "Z" 5 6 rfl
  ⟨h.1, h.2.1⟩

section ListHelpers

variable {γ : Type}

theorem list_set_self : ∀ (l : List γ) (i : Nat) (hi : i < l.length), l.set i l[i] = l
  | _ :: _, 0, _ => rfl
  | x :: xs, i + 1, h => by
    simpa [List.set] using list_set_self xs i (by simpa using h)

theorem cons_set_perm : ∀ (l : List γ) (i : Nat) (hi : i < l.length) (v : γ),
    (l[i] :: l.set i v).Perm (v :: l)
  | x :: xs, 0, _, v => by
    simpa using List.Perm.swap v x xs
  | x :: xs, i + 1, h, v => by
    have hi : i < xs.length := by simpa using h
    have step : (xs[i] :: x :: xs.set i v).Perm (x :: xs[i] :: xs.set i v) :=
      List.Perm.swap x (xs[i]) (xs.set i v)
    have ih : (x :: (xs[i] :: xs.set i v)).Perm (x :: (v :: xs)) :=
      (cons_set_perm xs i hi v).cons x
    have fin : (x :: v :: xs).Perm (v :: x :: xs) := List.Perm.swap v x xs
    simpa using step.trans (ih.trans fin)

theorem getElem?_dropLast (l : List γ) (i : Nat) (h : i < l.length - 1) :
    l.dropLast[i]? = l[i]? := by
  rw [List.dropLast_eq_take, List.getElem?_take]
  simp [h]

end ListHelpers

namespace BinaryHeap

variable {W : Type} [LinearOrderedAddCommMonoid W]

theorem swapAt_eq (h : List (Entry W)) (i j : Nat) (hi : i < h.length)
    (hj : j < h.length) : swapAt h i j = (h.set i h[j]).set j h[i] := by
  rw [swapAt, List.getElem?_eq_getElem hi, List.getElem?_eq_getElem hj]

theorem swapAt_length (h : List (Entry W)) (i j : Nat) :
    (swapAt h i j).length = h.length := by
  rw [swapAt]
  cases h[i]? <;> cases h[j]? <;> simp

theorem keyAt_swapAt_fst (h : List (Entry W)) (i j : Nat) (hi : i < h.length)
    (hj : j < h.length) : keyAt (swapAt h i j) i = keyAt h j := by
  rw [swapAt_eq h i j hi hj, keyAt, keyAt]
  by_cases hij : j = i
  · subst hij
    rw [List.getElem?_set_eq_of_lt _ (by simpa using hj), List.getElem?_eq_getElem hj]
  · rw [List.getElem?_set_ne hij, List.getElem?_set_eq_of_lt _ hi,
      List.getElem?_eq_getElem hj]

theorem keyAt_swapAt_snd (h : List (Entry W)) (i j : Nat) (hi : i < h.length)
    (hj : j < h.length) : keyAt (swapAt h i j) j = keyAt h i := by
  rw [swapAt_eq h i j hi hj, keyAt, keyAt]
  rw [List.getElem?_set_eq_of_lt _ (by simpa using hj), List.getElem?_eq_getElem hi]

theorem keyAt_swapAt_other (h : List (Entry W)) (i j k : Nat) (hki : k ≠ i)
    (hkj : k ≠ j) : keyAt (swapAt h i j) k = keyAt h k := by
  rw [swapAt]
  cases hhi : h[i]? with
  | none => rfl
  | some a =>
    cases hhj : h[j]? with
    | none => rfl
    | some b =>
      rw [keyAt, keyAt, List.getElem?_set_ne (Ne.symm hkj),
        List.getElem?_set_ne (Ne.symm hki)]

theorem swapAt_perm (h : List (Entry W)) (i j : Nat) : (swapAt h i j).Perm h := by
  by_cases hi : i < h.length
  · by_cases hj : j < h.length
    · rw [swapAt_eq h i j hi hj]
      by_cases hij : i = j
      · subst hij
        rw [List.set_set, list_set_self h i hi]
      · have h1 := cons_set_perm (h.set i h[j]) j (by simpa using hj) h[i]
        have hlen : j < (h.set i h[j]).length := by simpa using hj
        have hgj2 : (h.set i h[j])[j] = h[j] := by
          have hx := List.getElem?_set_ne (l := h) (a := h[j]) hij
          rw [List.getElem?_eq_getElem hlen, List.getElem?_eq_getElem hj] at hx
          exact Option.some.inj hx
        rw [hgj2] at h1
        have h2 := cons_set_perm h i hi h[j]
        exact (h1.trans h2).cons_inv
    · rw [swapAt, List.getElem?_eq_none (show h.length ≤ j by omega)]
      cases h[i]? <;> exact List.Perm.refl h
  · rw [swapAt, List.getElem?_eq_none (show h.length ≤ i by omega)]

theorem bubbleUpFuel_length : ∀ (fuel : Nat) (h : List (Entry W)) (i : Nat),
    (bubbleUpFuel fuel h i).length = h.length
  | 0, _, _ => rfl
  | fuel + 1, h, i => by
    rw [bubbleUpFuel]
    by_cases h0 : i = 0
    · simp [h0]
    · simp only [h0, if_false]
      by_cases hle : keyAt h ((i - 1) / 2) ≤ keyAt h i
      · simp [hle]
      · simp only [hle, if_false]
        rw [bubbleUpFuel_length fuel _ _, swapAt_length]

theorem bubbleUpFuel_perm : ∀ (fuel : Nat) (h : List (Entry W)) (i : Nat),
    (bubbleUpFuel fuel h i).Perm h
  | 0, h, _ => List.Perm.refl h
  | fuel + 1, h, i => by
    rw [bubbleUpFuel]
    by_cases h0 : i = 0
    · simp [h0]
    · simp only [h0, if_false]
      by_cases hle : keyAt h ((i - 1) / 2) ≤ keyAt h i
      · simp [hle]
      · simp only [hle, if_false]
        exact (bubbleUpFuel_perm fuel _ _).trans (swapAt_perm h i ((i - 1) / 2))

theorem bubbleDownFuel_length : ∀ (fuel : Nat) (h : List (Entry W)) (i : Nat),
    (bubbleDownFuel fuel h i).length = h.length
  | 0, _, _ => rfl
  | fuel + 1, h, i => by
    rw [bubbleDownFuel]
    by_cases hg : h.length ≤ i
    · simp [hg]
    · simp only [hg, if_false]
      by_cases hs : smallestIdx h i = i
      · simp [hs]
      · simp only [hs, if_false]
        rw [bubbleDownFuel_length fuel _ _, swapAt_length]

theorem bubbleDownFuel_perm : ∀ (fuel : Nat) (h : List (Entry W)) (i : Nat),
    (bubbleDownFuel fuel h i).Perm h
  | 0, h, _ => List.Perm.refl h
  | fuel + 1, h, i => by
    rw [bubbleDownFuel]
    by_cases hg : h.length ≤ i
    · simp [hg]
    · simp only [hg, if_false]
      by_cases hs : smallestIdx h i = i
      · simp [hs]
      · simp only [hs, if_false]
        exact (bubbleDownFuel_perm fuel _ _).trans (swapAt_perm h i _)

theorem bubbleUp_length (h : List (Entry W)) (i : Nat) :
    (bubbleUp h i).length = h.length := bubbleUpFuel_length i h i

theorem bubbleUp_perm (h : List (Entry W)) (i : Nat) :
    (bubbleUp h i).Perm h := bubbleUpFuel_perm i h i

theorem bubbleDown_length (h : List (Entry W)) (i : Nat) :
    (bubbleDown h i).length = h.length := bubbleDownFuel_length h.length h i

theorem bubbleDown_perm (h : List (Entry W)) (i : Nat) :
    (bubbleDown h i).Perm h := bubbleDownFuel_perm h.length h i

end BinaryHeap

namespace BinaryHeap

variable {W : Type} [LinearOrderedAddCommMonoid W]

/-- The heap is ordered except possibly between position `i` and its
parent; in addition, `i`'s parent is already below `i`'s children.  This is
the precise invariant maintained by sifting up. -/
def AlmostUp (h : List (Entry W)) (i : Nat) : Prop :=
  (∀ j, 0 < j → j < h.length → j ≠ i → keyAt h ((j - 1) / 2) ≤ keyAt h j) ∧
  (∀ j, 0 < j → j < h.length → (j - 1) / 2 = i → keyAt h ((i - 1) / 2) ≤ keyAt h j)

theorem keyAt_of_le_length (h : List (Entry W)) (i : Nat) (hle : h.length ≤ i) :
    keyAt h i = ⊤ := by
  rw [keyAt, List.getElem?_eq_none hle]

theorem heapOrdered_of_almostUp (h : List (Entry W)) (i : Nat)
    (ha : AlmostUp h i) (hle : keyAt h ((i - 1) / 2) ≤ keyAt h i) :
    HeapOrdered h := by
  intro j hjlen hj0
  by_cases hji : j = i
  · subst hji; exact hle
  · exact ha.1 j hj0 hjlen hji

theorem almostUp_swap (h : List (Entry W)) (i p : Nat) (hp : p = (i - 1) / 2)
    (hi : i < h.length) (h0 : 0 < i) (ha : AlmostUp h i)
    (hlt : keyAt h i < keyAt h p) :
    AlmostUp (swapAt h i p) p := by
  obtain ⟨ha1, ha2⟩ := ha
  have hpi : p < i := by omega
  have hplen : p < h.length := lt_trans hpi hi
  have hkeyi : keyAt (swapAt h i p) i = keyAt h p := keyAt_swapAt_fst h i p hi hplen
  have hkeyp : keyAt (swapAt h i p) p = keyAt h i := keyAt_swapAt_snd h i p hi hplen
  have hother : ∀ k, k ≠ i → k ≠ p → keyAt (swapAt h i p) k = keyAt h k :=
    fun k h1 h2 => keyAt_swapAt_other h i p k h1 h2
  have hlen : (swapAt h i p).length = h.length := swapAt_length h i p
  constructor
  · intro j hj0 hjlen hjp
    rw [hlen] at hjlen
    by_cases hji : j = i
    · subst hji
      rw [← hp, hkeyp, hkeyi]
      exact le_of_lt hlt
    · have hkj : keyAt (swapAt h i p) j = keyAt h j := hother j hji hjp
      by_cases hpj : (j - 1) / 2 = p
      · rw [hpj, hkeyp, hkj]
        have h2 : keyAt h ((j - 1) / 2) ≤ keyAt h j := ha1 j hj0 hjlen hji
        rw [hpj] at h2
        exact le_of_lt (lt_of_lt_of_le hlt h2)
      · by_cases hpj2 : (j - 1) / 2 = i
        · rw [hpj2, hkeyi, hkj, hp]
          exact ha2 j hj0 hjlen hpj2
        · rw [hother ((j - 1) / 2) hpj2 hpj, hkj]
          exact ha1 j hj0 hjlen hji
  · intro j hj0 hjlen hjp
    rw [hlen] at hjlen
    have hji2 : j ≠ p := by omega
    by_cases hp0 : p = 0
    · subst hp0
      rw [show ((0:Nat) - 1) / 2 = 0 from rfl, hkeyp]
      by_cases hji : j = i
      · subst hji
        rw [hkeyi]
        exact le_of_lt hlt
      · rw [hother j hji hji2]
        have h2 : keyAt h ((j - 1) / 2) ≤ keyAt h j := ha1 j hj0 hjlen hji
        rw [hjp] at h2
        exact le_of_lt (lt_of_lt_of_le hlt h2)
    · have hpplt : (p - 1) / 2 < p := by omega
      have hppi : (p - 1) / 2 ≠ i := by omega
      have hppp : (p - 1) / 2 ≠ p := by omega
      rw [hother ((p - 1) / 2) hppi hppp]
      have hpp : keyAt h ((p - 1) / 2) ≤ keyAt h p :=
        ha1 p (by omega) hplen (by omega)
      by_cases hji : j = i
      · subst hji
        rw [hkeyi]
        exact hpp
      · rw [hother j hji hji2]
        have h2 : keyAt h ((j - 1) / 2) ≤ keyAt h j := ha1 j hj0 hjlen hji
        rw [hjp] at h2
        exact le_trans hpp h2

theorem bubbleUpFuel_heapOrdered : ∀ (fuel : Nat) (h : List (Entry W)) (i : Nat),
    i ≤ fuel → AlmostUp h i → HeapOrdered (bubbleUpFuel fuel h i)
  | 0, h, i, hfuel, ha => by
    have h0 : i = 0 := by omega
    subst h0
    exact heapOrdered_of_almostUp h 0 ha (le_refl _)
  | fuel + 1, h, i, hfuel, ha => by
    rw [bubbleUpFuel]
    by_cases h0 : i = 0
    · subst h0
      simpa using heapOrdered_of_almostUp h 0 ha (le_refl _)
    · simp only [h0, if_false]
      by_cases hle : keyAt h ((i - 1) / 2) ≤ keyAt h i
      · simpa [hle] using heapOrdered_of_almostUp h i ha hle
      · simp only [hle, if_false]
        by_cases hil : i < h.length
        · exact bubbleUpFuel_heapOrdered fuel _ _ (by omega)
            (almostUp_swap h i ((i - 1) / 2) rfl hil (by omega) ha (lt_of_not_le hle))
        · exact absurd (keyAt_of_le_length h i (by omega) ▸ le_top) hle

theorem almostUp_append (h : List (Entry W)) (e : Entry W)
    (ho : HeapOrdered h) : AlmostUp (h ++ [e]) h.length := by
  have hkey : ∀ x, x < h.length → keyAt (h ++ [e]) x = keyAt h x := by
    intro x hx
    rw [keyAt, keyAt, List.getElem?_append, if_pos hx]
  constructor
  · intro j hj0 hjlen hjne
    have hjlt : j < h.length := by
      simp only [List.length_append, List.length_singleton] at hjlen
      omega
    rw [hkey j hjlt, hkey ((j - 1) / 2) (by omega)]
    exact ho j hjlt hj0
  · intro j hj0 hjlen hjp
    simp only [List.length_append, List.length_singleton] at hjlen
    omega

theorem insert_heapOrdered (h : List (Entry W)) (k : WithTop W) (n : String)
    (ho : HeapOrdered h) : HeapOrdered (insert h k n) := by
  rw [insert, bubbleUp]
  exact bubbleUpFuel_heapOrdered h.length (h ++ [⟨k, n⟩]) h.length (le_refl _)
    (almostUp_append h ⟨k, n⟩ ho)

theorem almostUp_set_lt (h : List (Entry W)) (i : Nat) (hi : i < h.length)
    (e' : Entry W) (ho : HeapOrdered h) (hlt : e'.distance < keyAt h i) :
    AlmostUp (h.set i e') i := by
  have hkeyi : keyAt (h.set i e') i = e'.distance := by
    rw [keyAt, List.getElem?_set_eq_of_lt _ hi]
  have hother : ∀ k, k ≠ i → keyAt (h.set i e') k = keyAt h k := by
    intro k hk
    rw [keyAt, keyAt, List.getElem?_set_ne (Ne.symm hk)]
  constructor
  · intro j hj0 hjlen hjne
    rw [List.length_set] at hjlen
    rw [hother j hjne]
    by_cases hpj : (j - 1) / 2 = i
    · rw [hpj, hkeyi]
      have h2 : keyAt h ((j - 1) / 2) ≤ keyAt h j := ho j hjlen hj0
      rw [hpj] at h2
      exact le_of_lt (lt_of_lt_of_le hlt h2)
    · rw [hother _ hpj]
      exact ho j hjlen hj0
  · intro j hj0 hjlen hjp
    rw [List.length_set] at hjlen
    have hji : j ≠ i := by omega
    rw [hother j hji]
    by_cases hp0 : i = 0
    · subst hp0
      rw [show ((0:Nat) - 1) / 2 = 0 from rfl, hkeyi]
      have h2 : keyAt h ((j - 1) / 2) ≤ keyAt h j := ho j hjlen hj0
      rw [hjp] at h2
      exact le_of_lt (lt_of_lt_of_le hlt h2)
    · have hppi : (i - 1) / 2 ≠ i := by omega
      rw [hother _ hppi]
      have h1 : keyAt h ((i - 1) / 2) ≤ keyAt h i := ho i hi (by omega)
      have h2 : keyAt h ((j - 1) / 2) ≤ keyAt h j := ho j hjlen hj0
      rw [hjp] at h2
      exact le_trans h1 h2

end BinaryHeap

namespace BinaryHeap

variable {W : Type} [LinearOrderedAddCommMonoid W]

theorem smallestIdx_self_le (h : List (Entry W)) (i : Nat)
    (hs : smallestIdx h i = i) :
    ∀ j, 0 < j → j < h.length → (j - 1) / 2 = i → keyAt h i ≤ keyAt h j := by
  intro j hj0 hjlen hjp
  rw [smallestIdx] at hs
  by_cases c1 : 2 * i + 1 < h.length ∧ keyAt h (2 * i + 1) < keyAt h i
  · rw [if_pos c1] at hs
    by_cases c2 : 2 * i + 2 < h.length ∧ keyAt h (2 * i + 2) < keyAt h (2 * i + 1)
    · rw [if_pos c2] at hs
      omega
    · rw [if_neg c2] at hs
      omega
  · rw [if_neg c1] at hs
    by_cases c2 : 2 * i + 2 < h.length ∧ keyAt h (2 * i + 2) < keyAt h i
    · rw [if_pos c2] at hs
      omega
    · have hj2 : j = 2 * i + 1 ∨ j = 2 * i + 2 := by omega
      rcases hj2 with hj2 | hj2
      · subst hj2
        exact le_of_not_lt (fun hcon => c1 ⟨hjlen, hcon⟩)
      · subst hj2
        exact le_of_not_lt (fun hcon => c2 ⟨hjlen, hcon⟩)

theorem smallestIdx_ne_spec (h : List (Entry W)) (i : Nat)
    (hne : smallestIdx h i ≠ i) :
    i < smallestIdx h i ∧ smallestIdx h i < h.length ∧
      keyAt h (smallestIdx h i) < keyAt h i ∧
      (smallestIdx h i - 1) / 2 = i ∧
      (∀ j, 0 < j → j < h.length → (j - 1) / 2 = i →
        keyAt h (smallestIdx h i) ≤ keyAt h j) := by
  rw [smallestIdx] at hne ⊢
  by_cases c1 : 2 * i + 1 < h.length ∧ keyAt h (2 * i + 1) < keyAt h i
  · rw [if_pos c1] at hne ⊢
    by_cases c2 : 2 * i + 2 < h.length ∧ keyAt h (2 * i + 2) < keyAt h (2 * i + 1)
    · rw [if_pos c2]
      refine ⟨by omega, c2.1, lt_trans c2.2 c1.2, by omega, ?_⟩
      intro j hj0 hjlen hjp
      have hj2 : j = 2 * i + 1 ∨ j = 2 * i + 2 := by omega
      rcases hj2 with hj2 | hj2 <;> subst hj2
      · exact le_of_lt c2.2
      · exact le_refl _
    · rw [if_neg c2]
      refine ⟨by omega, c1.1, c1.2, by omega, ?_⟩
      intro j hj0 hjlen hjp
      have hj2 : j = 2 * i + 1 ∨ j = 2 * i + 2 := by omega
      rcases hj2 with hj2 | hj2 <;> subst hj2
      · exact le_refl _
      · exact le_of_not_lt (fun hcon => c2 ⟨hjlen, hcon⟩)
  · rw [if_neg c1] at hne ⊢
    by_cases c2 : 2 * i + 2 < h.length ∧ keyAt h (2 * i + 2) < keyAt h i
    · rw [if_pos c2]
      refine ⟨by omega, c2.1, c2.2, by omega, ?_⟩
      intro j hj0 hjlen hjp
      have hj2 : j = 2 * i + 1 ∨ j = 2 * i + 2 := by omega
      rcases hj2 with hj2 | hj2 <;> subst hj2
      · exact le_trans (le_of_lt c2.2) (le_of_not_lt (fun hcon => c1 ⟨hjlen, hcon⟩))
      · exact le_refl _
    · rw [if_neg c2] at hne
      exact absurd rfl hne

/-- The heap is ordered except possibly between position `i` and its
children; in addition, `i`'s parent is already below `i`'s children.  This
is the precise invariant maintained by sifting down. -/
def AlmostDown (h : List (Entry W)) (i : Nat) : Prop :=
  (∀ j, 0 < j → j < h.length → (j - 1) / 2 ≠ i → keyAt h ((j - 1) / 2) ≤ keyAt h j) ∧
  (∀ j, 0 < j → j < h.length → (j - 1) / 2 = i → 0 < i →
    keyAt h ((i - 1) / 2) ≤ keyAt h j)

theorem heapOrdered_of_almostDown_oob (h : List (Entry W)) (i : Nat)
    (hoob : h.length ≤ i) (ha : AlmostDown h i) : HeapOrdered h := by
  intro j hjlen hj0
  exact ha.1 j hj0 hjlen (by omega)

theorem heapOrdered_of_almostDown_self (h : List (Entry W)) (i : Nat)
    (hs : smallestIdx h i = i) (ha : AlmostDown h i) : HeapOrdered h := by
  intro j hjlen hj0
  by_cases hpj : (j - 1) / 2 = i
  · rw [hpj]
    exact smallestIdx_self_le h i hs j hj0 hjlen hpj
  · exact ha.1 j hj0 hjlen hpj

theorem almostDown_swap (h : List (Entry W)) (i : Nat) (hi : i < h.length)
    (hne : smallestIdx h i ≠ i) (ha : AlmostDown h i) :
    AlmostDown (swapAt h i (smallestIdx h i)) (smallestIdx h i) := by
  obtain ⟨his, hslen, hlt, hsi, hmin⟩ := smallestIdx_ne_spec h i hne
  obtain ⟨ha1, ha2⟩ := ha
  have hkeyi : keyAt (swapAt h i (smallestIdx h i)) i = keyAt h (smallestIdx h i) :=
    keyAt_swapAt_fst h i _ hi hslen
  have hkeys : keyAt (swapAt h i (smallestIdx h i)) (smallestIdx h i) = keyAt h i :=
    keyAt_swapAt_snd h i _ hi hslen
  have hother : ∀ k, k ≠ i → k ≠ smallestIdx h i →
      keyAt (swapAt h i (smallestIdx h i)) k = keyAt h k :=
    fun k h1 h2 => keyAt_swapAt_other h i _ k h1 h2
  have hlen : (swapAt h i (smallestIdx h i)).length = h.length := swapAt_length _ _ _
  constructor
  · intro j hj0 hjlen hjne
    rw [hlen] at hjlen
    by_cases hji : j = i
    · subst hji
      have h0j : 0 < j := hj0
      have hpar : (j - 1) / 2 ≠ j := by omega
      have hpars : (j - 1) / 2 ≠ smallestIdx h j := by omega
      rw [hother ((j - 1) / 2) hpar hpars, hkeyi]
      exact ha2 (smallestIdx h j) (by omega) hslen hsi hj0
    · by_cases hjs : j = smallestIdx h i
      · rw [hjs, hsi, hkeyi, hkeys]
        exact le_of_lt hlt
      · have hkj : keyAt (swapAt h i (smallestIdx h i)) j = keyAt h j :=
          hother j hji hjs
        by_cases hpj : (j - 1) / 2 = i
        · rw [hpj, hkeyi, hkj]
          exact hmin j hj0 hjlen hpj
        · rw [hother ((j - 1) / 2) hpj hjne, hkj]
          exact ha1 j hj0 hjlen hpj
  · intro j hj0 hjlen hjp h0s
    rw [hlen] at hjlen
    have hjgt : smallestIdx h i < j := by omega
    have hji : j ≠ i := by omega
    have hjs : j ≠ smallestIdx h i := by omega
    rw [hsi, hkeyi, hother j hji hjs]
    have h2 := ha1 j hj0 hjlen (by omega)
    rw [hjp] at h2
    exact h2

theorem bubbleDownFuel_heapOrdered : ∀ (fuel : Nat) (h : List (Entry W)) (i : Nat),
    h.length - i ≤ fuel → AlmostDown h i → HeapOrdered (bubbleDownFuel fuel h i)
  | 0, h, i, hfuel, ha => heapOrdered_of_almostDown_oob h i (by omega) ha
  | fuel + 1, h, i, hfuel, ha => by
    rw [bubbleDownFuel]
    by_cases hg : h.length ≤ i
    · simpa [hg] using heapOrdered_of_almostDown_oob h i hg ha
    · simp only [hg, if_false]
      by_cases hs : smallestIdx h i = i
      · simpa [hs] using heapOrdered_of_almostDown_self h i hs ha
      · simp only [hs, if_false]
        have hspec := smallestIdx_ne_spec h i hs
        exact bubbleDownFuel_heapOrdered fuel _ _
          (by rw [swapAt_length]; omega)
          (almostDown_swap h i (by omega) hs ha)

theorem heapOrdered_nil : HeapOrdered ([] : List (Entry W)) := by
  intro i hi h0
  simp at hi

theorem almostDown_extract (m last : Entry W) (rest : List (Entry W))
    (hlast : rest.getLast? = some last) (ho : HeapOrdered (m :: rest)) :
    AlmostDown (last :: rest.dropLast) 0 := by
  have hrne : rest ≠ [] := by
    intro hcon
    rw [hcon] at hlast
    simp at hlast
  have hrlen : 0 < rest.length := List.length_pos.mpr hrne
  have hlen : (last :: rest.dropLast).length = rest.length := by
    simp only [List.length_cons, List.length_dropLast]
    omega
  have hkey : ∀ x, 0 < x → x < rest.length →
      keyAt (last :: rest.dropLast) x = keyAt (m :: rest) x := by
    intro x hx0 hxlen
    have h1 : (last :: rest.dropLast)[x]? = rest.dropLast[x - 1]? := by
      cases x with
      | zero => omega
      | succ n => simp
    have h2 : rest.dropLast[x - 1]? = rest[x - 1]? :=
      getElem?_dropLast rest (x - 1) (by omega)
    have h3 : (m :: rest)[x]? = rest[x - 1]? := by
      cases x with
      | zero => omega
      | succ n => simp
    rw [keyAt, keyAt, h1, h2, h3]
  constructor
  · intro j hj0 hjlen hjne
    rw [hlen] at hjlen
    have hp0 : 0 < (j - 1) / 2 := by omega
    rw [hkey j hj0 hjlen, hkey ((j - 1) / 2) hp0 (by omega)]
    exact ho j (by simp only [List.length_cons]; omega) hj0
  · intro j hj0 hjlen hjp h0i
    omega

theorem extractMin_heapOrdered (h : List (Entry W)) (c : String)
    (h2 : List (Entry W)) (ho : HeapOrdered h)
    (hx : extractMin h = some (c, h2)) : HeapOrdered h2 := by
  cases h with
  | nil => simp [extractMin] at hx
  | cons m rest =>
    rw [extractMin] at hx
    cases hlast : rest.getLast? with
    | none =>
      rw [hlast] at hx
      simp only [Option.some.injEq, Prod.mk.injEq] at hx
      rw [← hx.2]
      exact heapOrdered_nil
    | some last =>
      rw [hlast] at hx
      simp only [Option.some.injEq, Prod.mk.injEq] at hx
      rw [← hx.2, bubbleDown]
      exact bubbleDownFuel_heapOrdered _ _ _ (by omega)
        (almostDown_extract m last rest hlast ho)

theorem findIdx?_some_spec {γ : Type} (p : γ → Bool) :
    ∀ (l : List γ) (i : Nat), l.findIdx? p = some i →
      ∃ hi : i < l.length, p l[i] = true := by
  intro l
  induction l with
  | nil => intro i hx; simp [List.findIdx?] at hx
  | cons a rest ih =>
    intro i hx
    rw [List.findIdx?_cons] at hx
    by_cases hpa : p a = true
    · rw [if_pos hpa] at hx
      have : i = 0 := by
        injection hx with hx2
        omega
      subst this
      exact ⟨by simp, by simpa using hpa⟩
    · rw [if_neg hpa, List.findIdx?_succ] at hx
      rcases Option.map_eq_some'.mp hx with ⟨i', hrec, hplus⟩
      obtain ⟨hi', hp'⟩ := ih i' hrec
      subst hplus
      exact ⟨by simpa using hi', by simpa using hp'⟩

theorem updateDistance_heapOrdered (h : List (Entry W)) (n : String)
    (k : WithTop W) (ho : HeapOrdered h) :
    HeapOrdered (updateDistance h n k) := by
  cases hidx : h.findIdx? (fun e => e.node == n) with
  | none =>
    rw [updateDistance, hidx]
    exact ho
  | some i =>
    obtain ⟨hlt, -⟩ := findIdx?_some_spec _ h i hidx
    have hh : h[i]? = some h[i] := List.getElem?_eq_getElem hlt
    have hred : updateDistance h n k =
        if k < h[i].distance then bubbleUp (h.set i ⟨k, n⟩) i else h := by
      rw [updateDistance, hidx]
      change (match h[i]? with
        | some e => if k < e.distance then bubbleUp (h.set i ⟨k, n⟩) i else h
        | none => h) = _
      rw [hh]
    rw [hred]
    by_cases hk : k < h[i].distance
    · rw [if_pos hk, bubbleUp]
      have hkeq : keyAt h i = h[i].distance := by
        rw [keyAt, List.getElem?_eq_getElem hlt]
      exact bubbleUpFuel_heapOrdered i _ i (le_refl _)
        (almostUp_set_lt h i hlt ⟨k, n⟩ ho (by rw [hkeq]; exact hk))
    · rw [if_neg hk]
      exact ho

end BinaryHeap

/-- C7: the binary-heap order invariant (every non-root position's key is
at least its parent's key) holds of the empty heap, and is preserved by
every `insert`, by every `extractMin` on a non-empty heap (those are
exactly the calls on which `extractMin` returns a result), and by every
`updateDistance` (decrease-key) call. -/
theorem c7_heap_invariant_preserved {W : Type} [LinearOrderedAddCommMonoid W] :
    BinaryHeap.HeapOrdered ([] : List (Entry W)) ∧
      (∀ (h : List (Entry W)) (k : WithTop W) (n : String),
        BinaryHeap.HeapOrdered h →
        BinaryHeap.HeapOrdered (BinaryHeap.insert h k n)) ∧
      (∀ (h h2 : List (Entry W)) (c : String),
        BinaryHeap.HeapOrdered h → BinaryHeap.extractMin h = some (c, h2) →
        BinaryHeap.HeapOrdered h2) ∧
      (∀ (h : List (Entry W)) (n : String) (k : WithTop W),
        BinaryHeap.HeapOrdered h →
        BinaryHeap.HeapOrdered (BinaryHeap.updateDistance h n k)) :=
  ⟨BinaryHeap.heapOrdered_nil,
   fun h k n ho => BinaryHeap.insert_heapOrdered h k n ho,
   fun h h2 c ho hx => BinaryHeap.extractMin_heapOrdered h c h2 ho hx,
   fun h n k ho => BinaryHeap.updateDistance_heapOrdered h n k ho⟩

/-- A small concrete heap for the C7/C8 witnesses. -/
def demoHeap : List (Entry ℤ) :=
  [⟨((2 : ℤ) : WithTop ℤ), "a"⟩, ⟨((5 : ℤ) : WithTop ℤ), "b"⟩]

/-- C7 witness: the preservation statements instantiated on a concrete
ordered heap. -/
theorem c7_heap_invariant_witness :
    BinaryHeap.HeapOrdered (BinaryHeap.insert demoHeap ((1 : ℤ) : WithTop ℤ) "c") ∧
      BinaryHeap.HeapOrdered [(⟨((5 : ℤ) : WithTop ℤ), "b"⟩ : Entry ℤ)] ∧
      BinaryHeap.HeapOrdered
        (BinaryHeap.updateDistance demoHeap "b" ((1 : ℤ) : WithTop ℤ)) :=
  ⟨c7_heap_invariant_preserved.2.1 demoHeap _ "c" (by decide),
   c7_heap_invariant_preserved.2.2.1 demoHeap _ "a" (by decide) rfl,
   c7_heap_invariant_preserved.2.2.2 demoHeap "b" _ (by decide)⟩

/-- C8: for an item present in the heap (located by the linear scan),
`updateDistance` with a key that is not strictly smaller than the item's
current key leaves the heap entirely unchanged; with a strictly smaller
key it replaces the item's entry by one carrying the new key and re-orders
by sifting up (so the new entry is in the result, and heap order is
preserved). -/
theorem c8_updateDistance_guard {W : Type} [LinearOrderedAddCommMonoid W]
    (h : List (Entry W)) (n : String) (k : WithTop W) (i : Nat) (e : Entry W)
    (hfind : h.findIdx? (fun x => x.node == n) = some i)
    (he : h[i]? = some e) :
    (¬ k < e.distance → BinaryHeap.updateDistance h n k = h) ∧
      (k < e.distance →
        BinaryHeap.updateDistance h n k =
            BinaryHeap.bubbleUp (h.set i ⟨k, n⟩) i ∧
          (⟨k, n⟩ : Entry W) ∈ BinaryHeap.updateDistance h n k ∧
          (BinaryHeap.HeapOrdered h →
            BinaryHeap.HeapOrdered (BinaryHeap.updateDistance h n k))) := by
  have hi : i < h.length := by
    by_contra hcon
    rw [List.getElem?_eq_none (by omega)] at he
    exact Option.noConfusion he
  have hred : BinaryHeap.updateDistance h n k =
      if k < e.distance then BinaryHeap.bubbleUp (h.set i ⟨k, n⟩) i else h := by
    rw [BinaryHeap.updateDistance, hfind]
    change (match h[i]? with
      | some e => if k < e.distance then BinaryHeap.bubbleUp (h.set i ⟨k, n⟩) i else h
      | none => h) = _
    rw [he]
  constructor
  · intro hk
    rw [hred, if_neg hk]
  · intro hk
    refine ⟨by rw [hred, if_pos hk], ?_, fun ho =>
      BinaryHeap.updateDistance_heapOrdered h n k ho⟩
    rw [hred, if_pos hk]
    have hmem : (⟨k, n⟩ : Entry W) ∈ h.set i ⟨k, n⟩ := by
      have hlen : i < (h.set i ⟨k, n⟩).length := by simpa using hi
      have hval : (h.set i ⟨k, n⟩)[i] = ⟨k, n⟩ := by
        have hset : (h.set i ⟨k, n⟩)[i]? = some ⟨k, n⟩ :=
          List.getElem?_set_eq_of_lt _ hi
        rw [List.getElem?_eq_getElem hlen] at hset
        exact Option.some.inj hset
      have hm := List.getElem_mem hlen
      rw [hval] at hm
      exact hm
    exact (BinaryHeap.bubbleUp_perm _ _).mem_iff.mpr hmem

/-- C8 witness: both branches of the guard exercised on a concrete heap. -/
theorem c8_updateDistance_witness :
    BinaryHeap.updateDistance demoHeap "b" ((7 : ℤ) : WithTop ℤ) = demoHeap ∧
      (⟨((1 : ℤ) : WithTop ℤ), "b"⟩ : Entry ℤ) ∈
        BinaryHeap.updateDistance demoHeap "b" ((1 : ℤ) : WithTop ℤ) :=
  ⟨(c8_updateDistance_guard demoHeap "b" _ 1 ⟨((5 : ℤ) : WithTop ℤ), "b"⟩
      rfl rfl).1 (by decide),
   ((c8_updateDistance_guard demoHeap "b" _ 1 ⟨((5 : ℤ) : WithTop ℤ), "b"⟩
      rfl rfl).2 (by decide)).2.1⟩

namespace BinaryHeap

variable {W : Type} [LinearOrderedAddCommMonoid W]

theorem insert_perm (h : List (Entry W)) (k : WithTop W) (n : String) :
    (insert h k n).Perm (⟨k, n⟩ :: h) := by
  rw [insert]
  exact (bubbleUp_perm _ _).trans (List.perm_append_singleton _ _)

theorem heapOrdered_root_le (h : List (Entry W)) (ho : HeapOrdered h) :
    ∀ i, i < h.length → keyAt h 0 ≤ keyAt h i := by
  intro i
  induction i using Nat.strong_induction_on with
  | _ i ih =>
    intro hi
    cases Nat.eq_zero_or_pos i with
    | inl h0 =>
      subst h0
      exact le_refl _
    | inr h0 =>
      exact le_trans (ih ((i - 1) / 2) (by omega) (by omega)) (ho i hi h0)

end BinaryHeap

namespace Graph

variable {W α : Type} [LinearOrderedAddCommMonoid W]

/-- The keys of the node registry. -/
def nodeKeys (g : Graph W α) : List String := g.nodes.map Prod.fst

theorem initStep_dist (start : String) (st : DState W)
    (kv : String × NodeData W α) :
    (initStep start st kv).dist =
      JsMap.set st.dist kv.1 (if kv.1 = start then 0 else ⊤) := by
  rw [initStep]
  by_cases h : kv.1 = start <;> simp [h]

theorem initStep_prev (start : String) (st : DState W)
    (kv : String × NodeData W α) :
    (initStep start st kv).prev = JsMap.set st.prev kv.1 none := by
  rw [initStep]
  by_cases h : kv.1 = start <;> simp [h]

theorem initStep_heap (start : String) (st : DState W)
    (kv : String × NodeData W α) :
    (initStep start st kv).heap =
      BinaryHeap.insert st.heap (if kv.1 = start then 0 else ⊤) kv.1 := by
  rw [initStep]
  by_cases h : kv.1 = start <;> simp [h]

theorem initFold_dist (start : String) :
    ∀ (l : List (String × NodeData W α)) (st : DState W) (u : String),
      JsMap.get? (l.foldl (initStep start) st).dist u =
        if u ∈ l.map Prod.fst then some (if u = start then (0 : WithTop W) else ⊤)
        else JsMap.get? st.dist u := by
  intro l
  induction l with
  | nil => intro st u; simp
  | cons kv rest ih =>
    intro st u
    rw [List.foldl_cons, ih]
    by_cases hul : u ∈ rest.map Prod.fst
    · simp [hul]
    · rw [if_neg hul, initStep_dist, JsMap.get?_set]
      by_cases huk : kv.1 = u
      · subst huk
        simp
      · have hnc : ¬ u ∈ kv.1 :: rest.map Prod.fst := by
          simp only [List.mem_cons]
          rintro (h1 | h2)
          · exact huk h1.symm
          · exact hul h2
        simp only [huk, if_false, List.map_cons]
        rw [if_neg hnc]

theorem initFold_prev (start : String) :
    ∀ (l : List (String × NodeData W α)) (st : DState W) (u : String),
      JsMap.get? (l.foldl (initStep start) st).prev u =
        if u ∈ l.map Prod.fst then some none else JsMap.get? st.prev u := by
  intro l
  induction l with
  | nil => intro st u; simp
  | cons kv rest ih =>
    intro st u
    rw [List.foldl_cons, ih]
    by_cases hul : u ∈ rest.map Prod.fst
    · simp [hul]
    · rw [if_neg hul, initStep_prev, JsMap.get?_set]
      by_cases huk : kv.1 = u
      · subst huk
        simp
      · have hnc : ¬ u ∈ kv.1 :: rest.map Prod.fst := by
          simp only [List.mem_cons]
          rintro (h1 | h2)
          · exact huk h1.symm
          · exact hul h2
        simp only [huk, if_false, List.map_cons]
        rw [if_neg hnc]

/-- The heap entry created for a node during initialization. -/
def initEntry (start : String) (kv : String × NodeData W α) : Entry W :=
  ⟨if kv.1 = start then 0 else ⊤, kv.1⟩

theorem initFold_heap_perm (start : String) :
    ∀ (l : List (String × NodeData W α)) (st : DState W),
      (l.foldl (initStep start) st).heap.Perm
        (l.map (initEntry start) ++ st.heap) := by
  intro l
  induction l with
  | nil => intro st; simp
  | cons kv rest ih =>
    intro st
    rw [List.foldl_cons]
    refine (ih _).trans ?_
    have hstep : (initStep start st kv).heap.Perm (initEntry start kv :: st.heap) := by
      rw [initStep_heap]
      exact BinaryHeap.insert_perm _ _ _
    refine (List.Perm.append_left _ hstep).trans ?_
    simp only [List.map_cons, List.cons_append]
    exact List.perm_middle

theorem initFold_heap_ordered (start : String) :
    ∀ (l : List (String × NodeData W α)) (st : DState W),
      BinaryHeap.HeapOrdered st.heap →
      BinaryHeap.HeapOrdered (l.foldl (initStep start) st).heap := by
  intro l
  induction l with
  | nil => intro st ho; exact ho
  | cons kv rest ih =>
    intro st ho
    rw [List.foldl_cons]
    refine ih _ ?_
    rw [initStep_heap]
    exact BinaryHeap.insert_heapOrdered _ _ _ ho

theorem initState_dist (g : Graph W α) (start u : String) :
    JsMap.get? (initState g start).dist u =
      if u ∈ nodeKeys g then some (if u = start then (0 : WithTop W) else ⊤)
      else none := by
  rw [initState, initFold_dist]
  rfl

theorem initState_prev (g : Graph W α) (start u : String) :
    JsMap.get? (initState g start).prev u =
      if u ∈ nodeKeys g then some none else none := by
  rw [initState, initFold_prev]
  rfl

theorem initState_heap_perm (g : Graph W α) (start : String) :
    (initState g start).heap.Perm (g.nodes.map (initEntry start)) := by
  rw [initState]
  simpa using initFold_heap_perm start g.nodes ⟨[], [], []⟩

theorem initState_heap_ordered (g : Graph W α) (start : String) :
    BinaryHeap.HeapOrdered (initState g start).heap := by
  rw [initState]
  exact initFold_heap_ordered start g.nodes ⟨[], [], []⟩ BinaryHeap.heapOrdered_nil

end Graph

namespace Graph

variable {W α : Type} [LinearOrderedAddCommMonoid W]

theorem buildPath_none (prev : List (String × Option String)) (fuel : Nat)
    (acc : List String) : buildPath prev fuel none acc = acc := by
  cases fuel <;> rfl

theorem dijkstraLoop_eq (g : Graph W α) (endNode : String) (fuel : Nat)
    (st : DState W) :
    dijkstraLoop g endNode fuel st =
      match BinaryHeap.extractMin st.heap with
      | none => .error .noPathFound
      | some (current, heap1) =>
        if current = endNode then
          .ok { path := buildPath st.prev (st.prev.length + 1) (some endNode) [],
                distance := JsMap.get? st.dist endNode }
        else
          match fuel with
          | 0 => .error .noPathFound
          | fuel' + 1 =>
            dijkstraLoop g endNode fuel'
              (relaxNeighbors g current { st with heap := heap1 }) := by
  rw [dijkstraLoop.eq_def]

end Graph

/-- A graph whose only node has the empty string as its key. -/
def gEmptyKey : Graph ℤ ℤ := Graph.addNode Graph.empty "" 7

/-- C9 counterexample: for the (perfectly legal) node key `""`, the path
reconstruction loop `while (node)` stops immediately because the empty
string is falsy in JS, so `shortestPath(G, "", "")` succeeds with path
`[]`, not `[s]` as the claim states for every present node. -/
theorem c9_empty_key_gives_empty_path :
    Graph.findShortestPath gEmptyKey "" "" = .ok ⟨[], some 0⟩ ∧
      JsMap.hasKey gEmptyKey.nodes "" = true ∧ ([] : List String) ≠ [""] :=
  ⟨rfl, rfl, by decide⟩

/-- C9 (amended): for every graph and every present node `s` whose key is
truthy (a non-empty string), `shortestPath(G, s, s)` succeeds with path
`[s]` and distance `0`. -/
theorem c9_shortestPath_self {W α : Type} [LinearOrderedAddCommMonoid W]
    (g : Graph W α) (s : String) (hs : JsMap.hasKey g.nodes s = true)
    (hne : s ≠ "") :
    Graph.findShortestPath g s s = .ok ⟨[s], some 0⟩ := by
  have hsk : s ∈ Graph.nodeKeys g := by
    rw [JsMap.hasKey] at hs
    obtain ⟨v, hv⟩ := JsMap.get?_isSome_iff_mem.mp hs
    exact List.mem_map.mpr ⟨(s, v), hv, rfl⟩
  have hcond : ¬((!(JsMap.hasKey g.nodes s) || !(JsMap.hasKey g.nodes s)) = true) := by
    rw [hs]
    decide
  rw [Graph.findShortestPath, if_neg hcond]
  show Graph.dijkstraLoop g s (Graph.initState g s).heap.length
    (Graph.initState g s) = _
  have hperm := Graph.initState_heap_perm g s
  have ho := Graph.initState_heap_ordered g s
  have hsentry : (⟨0, s⟩ : Entry W) ∈ (Graph.initState g s).heap := by
    refine hperm.mem_iff.mpr ?_
    obtain ⟨kv, hkv, hkv1⟩ := List.mem_map.mp hsk
    refine List.mem_map.mpr ⟨kv, hkv, ?_⟩
    rw [Graph.initEntry, if_pos hkv1, hkv1]
  have hbp : Graph.buildPath (Graph.initState g s).prev
      ((Graph.initState g s).prev.length + 1) (some s) [] = [s] := by
    simp only [Graph.buildPath, if_neg hne]
    rw [Graph.initState_prev, if_pos hsk]
    exact Graph.buildPath_none _ _ _
  have hdist : JsMap.get? (Graph.initState g s).dist s = some (0 : WithTop W) := by
    rw [Graph.initState_dist, if_pos hsk]
    simp
  cases hheap : (Graph.initState g s).heap with
  | nil =>
    rw [hheap] at hsentry
    simp at hsentry
  | cons e0 hrest =>
    rw [hheap] at hperm hsentry ho
    have he0node : e0.node = s := by
      by_contra hcon
      have he0mem : e0 ∈ List.map (Graph.initEntry s) g.nodes :=
        hperm.subset (List.mem_cons_self _ _)
      obtain ⟨kv0, hkv0mem, hkv0⟩ := List.mem_map.mp he0mem
      have hkv0s : kv0.1 ≠ s := by
        intro hceq
        apply hcon
        rw [← hkv0, Graph.initEntry]
        simpa using hceq
      have he0dist : e0.distance = ⊤ := by
        rw [← hkv0, Graph.initEntry, if_neg hkv0s]
      obtain ⟨j, hj, hjval⟩ := List.mem_iff_getElem.mp hsentry
      have hroot := BinaryHeap.heapOrdered_root_le _ ho j hj
      have hk0 : BinaryHeap.keyAt (e0 :: hrest) 0 = e0.distance := by
        rw [BinaryHeap.keyAt]
        simp
      have hkj : BinaryHeap.keyAt (e0 :: hrest) j = (0 : WithTop W) := by
        rw [BinaryHeap.keyAt, List.getElem?_eq_getElem hj, hjval]
      rw [hk0, hkj, he0dist, ← WithTop.coe_zero] at hroot
      exact WithTop.not_top_le_coe (0 : W) hroot
    have hx : ∃ h2, BinaryHeap.extractMin (e0 :: hrest) = some (e0.node, h2) := by
      rw [BinaryHeap.extractMin]
      cases hlast : hrest.getLast? with
      | none => exact ⟨[], rfl⟩
      | some last => exact ⟨_, rfl⟩
    obtain ⟨h2, hx⟩ := hx
    rw [Graph.dijkstraLoop_eq, hheap, hx]
    simp only [he0node, if_true, eq_self_iff_true]
    rw [hbp, hdist]

/-- C9 witness: the amended self-path theorem instantiated on the sample
graph at node `C`. -/
theorem c9_shortestPath_self_witness :
    Graph.findShortestPath sampleGraph "C" "C" = .ok ⟨["C"], some 0⟩ :=
  c9_shortestPath_self sampleGraph "C" rfl (by decide)

namespace Graph

variable {W α : Type} [LinearOrderedAddCommMonoid W]

/-- Well-formedness of a graph value: the JS-`Map` representation
invariant (keys are distinct at every level — a real `Map` cannot hold a
key twice), the adjacency-consistency invariant of the spec (every edge
entry references registered endpoint nodes), and non-negative weights.
These are exactly the hypotheses of the optimality claim. -/
structure WFG (g : Graph W α) : Prop where
  nodesNodup : (g.nodes.map Prod.fst).Nodup
  edgesNodup : (g.edges.map Prod.fst).Nodup
  innerNodup : ∀ p ∈ g.edges, (p.2.map Prod.fst).Nodup
  consistentSrc : ∀ p ∈ g.edges, ∀ q ∈ p.2, JsMap.hasKey g.nodes p.1 = true
  consistentTgt : ∀ p ∈ g.edges, ∀ q ∈ p.2, JsMap.hasKey g.nodes q.1 = true
  nonnegW : ∀ p ∈ g.edges, ∀ q ∈ p.2, (0 : W) ≤ q.2.weight

/-- The total weight of the walk `u :: p` through the adjacency index, or
`none` if some consecutive pair is not an edge. -/
def chainCost (g : Graph W α) : String → List String → Option (WithTop W)
  | _, [] => some 0
  | u, v :: rest =>
    match edgeAt g u v with
    | some e => (chainCost g v rest).map (fun c => (e.weight : WithTop W) + c)
    | none => none

theorem hasKey_iff_mem_keys (g : Graph W α) (u : String) :
    JsMap.hasKey g.nodes u = true ↔ u ∈ nodeKeys g := by
  rw [JsMap.hasKey, JsMap.get?_isSome_iff_mem]
  constructor
  · rintro ⟨v, hv⟩
    exact List.mem_map.mpr ⟨(u, v), hv, rfl⟩
  · intro hm
    obtain ⟨q, hq, hq1⟩ := List.mem_map.mp hm
    exact ⟨q.2, by rw [← hq1]; exact hq⟩

theorem edgeAt_mem {g : Graph W α} {u v : String} {e : Edge W}
    (h : edgeAt g u v = some e) :
    ∃ m, (u, m) ∈ g.edges ∧ (v, e) ∈ m := by
  rw [edgeAt] at h
  cases hm : JsMap.get? g.edges u with
  | none => rw [hm] at h; exact Option.noConfusion h
  | some m =>
    rw [hm] at h
    exact ⟨m, JsMap.get?_mem hm, JsMap.get?_mem h⟩

theorem edgeAt_props {g : Graph W α} (hwf : WFG g) {u v : String} {e : Edge W}
    (h : edgeAt g u v = some e) :
    JsMap.hasKey g.nodes u = true ∧ JsMap.hasKey g.nodes v = true ∧
      (0 : W) ≤ e.weight := by
  obtain ⟨m, hm, hve⟩ := edgeAt_mem h
  exact ⟨hwf.consistentSrc (u, m) hm (v, e) hve,
    hwf.consistentTgt (u, m) hm (v, e) hve,
    hwf.nonnegW (u, m) hm (v, e) hve⟩

theorem chainCost_nonneg {g : Graph W α} (hwf : WFG g) :
    ∀ (p : List String) (u : String) (c : WithTop W),
      chainCost g u p = some c → 0 ≤ c := by
  intro p
  induction p with
  | nil =>
    intro u c hc
    rw [chainCost] at hc
    rw [← Option.some.inj hc]
  | cons v rest ih =>
    intro u c hc
    rw [chainCost] at hc
    cases he : edgeAt g u v with
    | none => rw [he] at hc; exact Option.noConfusion hc
    | some e =>
      rw [he] at hc
      rcases Option.map_eq_some'.mp hc with ⟨c', hc', hsum⟩
      have hw : (0 : WithTop W) ≤ (e.weight : WithTop W) := by
        exact_mod_cast (edgeAt_props hwf he).2.2
      rw [← hsum]
      exact add_nonneg hw (ih v c' hc')

/-- A node is finalized (in Dijkstra terms) when it is registered but no
longer in the queue. -/
def Finalized (g : Graph W α) (st : DState W) (u : String) : Prop :=
  JsMap.hasKey g.nodes u = true ∧ u ∉ BinaryHeap.nodesOf st.heap

end Graph

section MoreListHelpers

variable {γ : Type}

theorem findIdx?_none_spec (p : γ → Bool) (l : List γ)
    (h : l.findIdx? p = none) : ∀ x ∈ l, p x = false := by
  intro x hx
  simpa using List.findIdx?_eq_none_iff.mp h x hx

theorem mem_set_cases (l : List γ) (i : Nat) (v : γ) (e : γ)
    (he : e ∈ l.set i v) :
    e = v ∨ ∃ j, ∃ hj : j < l.length, j ≠ i ∧ l[j] = e := by
  obtain ⟨j, hj, hval⟩ := List.mem_iff_getElem.mp he
  have hjlen : j < l.length := by simpa using hj
  by_cases hji : j = i
  · subst hji
    left
    have := List.getElem?_set_eq_of_lt v (l := l) hjlen
    rw [List.getElem?_eq_getElem hj] at this
    rw [← hval]
    exact Option.some.inj this
  · right
    refine ⟨j, hjlen, hji, ?_⟩
    have := List.getElem?_set_ne (l := l) (a := v) (fun hcon => hji hcon.symm)
    rw [List.getElem?_eq_getElem hj, List.getElem?_eq_getElem hjlen] at this
    rw [← hval]
    exact (Option.some.inj this).symm

end MoreListHelpers

namespace BinaryHeap

variable {W : Type} [LinearOrderedAddCommMonoid W]

theorem mem_nodesOf {h : List (Entry W)} {u : String} :
    u ∈ nodesOf h ↔ ∃ e ∈ h, e.node = u := by
  rw [nodesOf]
  simp

theorem nodesOf_set_self (h : List (Entry W)) (i : Nat) (hi : i < h.length)
    (k : WithTop W) (n : String) (hn : h[i].node = n) :
    nodesOf (h.set i ⟨k, n⟩) = nodesOf h := by
  rw [nodesOf, nodesOf, List.map_set]
  have hlen : i < (h.map (·.node)).length := by simpa using hi
  have hval : (h.map (·.node))[i] = n := by
    rw [List.getElem_map]
    exact hn
  rw [show (⟨k, n⟩ : Entry W).node = n from rfl, ← hval]
  exact list_set_self _ i hlen

theorem extractMin_spec (h : List (Entry W)) (c : String) (h1 : List (Entry W))
    (hx : extractMin h = some (c, h1)) :
    ∃ e0 rest, h = e0 :: rest ∧ c = e0.node ∧ h.Perm (e0 :: h1) ∧
      keyAt h 0 = e0.distance ∧ h1.length + 1 = h.length := by
  cases h with
  | nil => simp [extractMin] at hx
  | cons e0 rest =>
    refine ⟨e0, rest, rfl, ?_⟩
    rw [extractMin] at hx
    cases hlast : rest.getLast? with
    | none =>
      rw [hlast] at hx
      simp only [Option.some.injEq, Prod.mk.injEq] at hx
      have hrest : rest = [] := by
        cases rest with
        | nil => rfl
        | cons a t => rw [List.getLast?_eq_getLast _ (by simp)] at hlast; simp at hlast
      subst hrest
      rw [← hx.2]
      exact ⟨hx.1.symm, List.Perm.refl _, by rw [keyAt]; simp, by simp⟩
    | some last =>
      rw [hlast] at hx
      simp only [Option.some.injEq, Prod.mk.injEq] at hx
      have hrne : rest ≠ [] := by
        intro hcon
        rw [hcon] at hlast
        simp at hlast
      have hlasteq : last = rest.getLast hrne := by
        rw [List.getLast?_eq_getLast _ hrne] at hlast
        exact (Option.some.inj hlast).symm
      have hrperm : rest.Perm (last :: rest.dropLast) := by
        conv_lhs => rw [← List.dropLast_append_getLast hrne, ← hlasteq]
        exact List.perm_append_singleton _ _
      have hperm : (e0 :: rest).Perm (e0 :: h1) := by
        refine List.Perm.cons e0 ?_
        refine hrperm.trans ?_
        rw [← hx.2]
        exact (bubbleDown_perm _ _).symm
      refine ⟨hx.1.symm, hperm, by rw [keyAt]; simp, ?_⟩
      rw [← hx.2, bubbleDown_length]
      simp only [List.length_cons, List.length_dropLast]
      have := List.length_pos.mpr hrne
      omega

end BinaryHeap

namespace Graph

variable {W α : Type} [LinearOrderedAddCommMonoid W]

/-- The Dijkstra loop invariant: the heap holds exactly the not-yet
finalized nodes, each once, keyed by its current tentative distance;
distances are defined exactly on registered nodes and are non-negative,
with `start` pinned at `0`; every edge out of a finalized node has been
relaxed; and every finalized distance is below every queued key. -/
structure DInv (g : Graph W α) (start : String) (st : DState W) : Prop where
  startIn : JsMap.hasKey g.nodes start = true
  sync : ∀ e ∈ st.heap, JsMap.get? st.dist e.node = some e.distance
  nodupN : (BinaryHeap.nodesOf st.heap).Nodup
  subN : ∀ e ∈ st.heap, JsMap.hasKey g.nodes e.node = true
  distKeys : ∀ u, (JsMap.get? st.dist u).isSome = JsMap.hasKey g.nodes u
  nonnegD : ∀ u d, JsMap.get? st.dist u = some d → (0 : WithTop W) ≤ d
  startZero : JsMap.get? st.dist start = some 0
  frontier : ∀ u, Finalized g st u → ∀ v e, edgeAt g u v = some e →
    ∃ du dv, JsMap.get? st.dist u = some du ∧ JsMap.get? st.dist v = some dv ∧
      dv ≤ du + (e.weight : WithTop W)
  minFinal : ∀ u du, Finalized g st u → JsMap.get? st.dist u = some du →
    ∀ e ∈ st.heap, du ≤ e.distance

theorem initState_DInv (g : Graph W α) (start : String) (hwf : WFG g)
    (hs : JsMap.hasKey g.nodes start = true) :
    DInv g start (initState g start) := by
  have hperm := initState_heap_perm g start
  have hnmap : (BinaryHeap.nodesOf (initState g start).heap).Perm (nodeKeys g) := by
    have h1 := hperm.map (·.node)
    rw [BinaryHeap.nodesOf]
    refine h1.trans ?_
    rw [List.map_map]
    have : ((fun e => Entry.node e) ∘ initEntry start) =
        (Prod.fst : String × NodeData W α → String) := by
      funext kv
      rfl
    rw [this, nodeKeys]
  have hmemchar : ∀ e ∈ (initState g start).heap,
      ∃ kv ∈ g.nodes, initEntry start kv = e := by
    intro e he
    exact List.mem_map.mp (hperm.subset he)
  refine ⟨hs, ?_, ?_, ?_, ?_, ?_, ?_, ?_, ?_⟩
  · intro e he
    obtain ⟨kv, hkv, hkveq⟩ := hmemchar e he
    rw [← hkveq]
    show JsMap.get? (initState g start).dist kv.1 = _
    rw [initState_dist,
      if_pos (show kv.1 ∈ nodeKeys g from List.mem_map.mpr ⟨kv, hkv, rfl⟩)]
    rfl
  · exact hnmap.nodup_iff.mpr hwf.nodesNodup
  · intro e he
    obtain ⟨kv, hkv, hkveq⟩ := hmemchar e he
    rw [← hkveq]
    show JsMap.hasKey g.nodes kv.1 = true
    exact JsMap.hasKey_of_mem hkv
  · intro u
    rw [initState_dist]
    by_cases hu : u ∈ nodeKeys g
    · rw [if_pos hu]
      exact ((hasKey_iff_mem_keys g u).mpr hu).symm
    · rw [if_neg hu]
      have : ¬ JsMap.hasKey g.nodes u = true := fun hcon =>
        hu ((hasKey_iff_mem_keys g u).mp hcon)
      simp only [Option.isSome_none]
      exact (Bool.not_eq_true _).mp this |>.symm
  · intro u d hd
    rw [initState_dist] at hd
    by_cases hu : u ∈ nodeKeys g
    · rw [if_pos hu] at hd
      rw [← Option.some.inj hd]
      by_cases hus : u = start
      · rw [if_pos hus]
      · rw [if_neg hus]
        exact le_top
    · rw [if_neg hu] at hd
      exact Option.noConfusion hd
  · rw [initState_dist, if_pos ((hasKey_iff_mem_keys g start).mp hs), if_pos rfl]
  · intro u hfin v e hedge
    exact absurd (hnmap.mem_iff.mpr ((hasKey_iff_mem_keys g u).mp hfin.1)) hfin.2
  · intro u du hfin hdu e he
    exact absurd (hnmap.mem_iff.mpr ((hasKey_iff_mem_keys g u).mp hfin.1)) hfin.2

end Graph

namespace Graph

variable {W α : Type} [LinearOrderedAddCommMonoid W]

/-- The invariant carried through the relaxation fold of one Dijkstra
iteration: `current` has just been extracted, with heap-minimal tentative
distance `dc`, and is already counted as finalized. -/
structure RInv (g : Graph W α) (start current : String) (dc : WithTop W)
    (st : DState W) : Prop where
  startIn : JsMap.hasKey g.nodes start = true
  sync : ∀ e ∈ st.heap, JsMap.get? st.dist e.node = some e.distance
  nodupN : (BinaryHeap.nodesOf st.heap).Nodup
  subN : ∀ e ∈ st.heap, JsMap.hasKey g.nodes e.node = true
  distKeys : ∀ u, (JsMap.get? st.dist u).isSome = JsMap.hasKey g.nodes u
  nonnegD : ∀ u d, JsMap.get? st.dist u = some d → (0 : WithTop W) ≤ d
  startZero : JsMap.get? st.dist start = some 0
  curIn : JsMap.hasKey g.nodes current = true
  curDist : JsMap.get? st.dist current = some dc
  curNotHeap : current ∉ BinaryHeap.nodesOf st.heap
  ordered : BinaryHeap.HeapOrdered st.heap
  frontierOld : ∀ u, Finalized g st u → u ≠ current → ∀ v e,
    edgeAt g u v = some e →
    ∃ du dv, JsMap.get? st.dist u = some du ∧ JsMap.get? st.dist v = some dv ∧
      dv ≤ du + (e.weight : WithTop W)
  minFinal : ∀ u du, Finalized g st u → JsMap.get? st.dist u = some du →
    du ≤ dc ∧ ∀ e ∈ st.heap, du ≤ e.distance

theorem relaxStep_preserve (g : Graph W α) (start current : String)
    (dc : WithTop W) (st : DState W) (hr : RInv g start current dc st)
    (v : String) (ed : Edge W) (hvin : JsMap.hasKey g.nodes v = true)
    (hw : (0 : W) ≤ ed.weight) :
    RInv g start current dc (relaxStep current st (v, ed)) ∧
      (∀ u d2, JsMap.get? (relaxStep current st (v, ed)).dist u = some d2 →
        ∃ d1, JsMap.get? st.dist u = some d1 ∧ d2 ≤ d1) ∧
      (∃ dv, JsMap.get? (relaxStep current st (v, ed)).dist v = some dv ∧
        dv ≤ dc + (ed.weight : WithTop W)) ∧
      (∀ u, u ∈ BinaryHeap.nodesOf (relaxStep current st (v, ed)).heap ↔
        u ∈ BinaryHeap.nodesOf st.heap) := by
  have hwc : (0 : WithTop W) ≤ (ed.weight : WithTop W) := by exact_mod_cast hw
  have hdcle : dc ≤ dc + (ed.weight : WithTop W) := le_add_of_nonneg_right hwc
  have hvsome : (JsMap.get? st.dist v).isSome = true := by
    rw [hr.distKeys v, hvin]
  obtain ⟨dv0, hdv0⟩ := Option.isSome_iff_exists.mp hvsome
  have hstep : relaxStep current st (v, ed) =
      if dc + (ed.weight : WithTop W) < dv0 then
        { dist := JsMap.set st.dist v (dc + (ed.weight : WithTop W)),
          prev := JsMap.set st.prev v (some current),
          heap := BinaryHeap.updateDistance st.heap v
            (dc + (ed.weight : WithTop W)) }
      else st := by
    rw [relaxStep, hr.curDist, hdv0]
  by_cases halt : dc + (ed.weight : WithTop W) < dv0
  case neg =>
    rw [hstep, if_neg halt]
    exact ⟨hr, fun u d2 h2 => ⟨d2, h2, le_refl _⟩,
      ⟨dv0, hdv0, le_of_not_lt halt⟩, fun u => Iff.rfl⟩
  case pos =>
    have h0dc : (0 : WithTop W) ≤ dc := hr.nonnegD current dc hr.curDist
    have h0alt : (0 : WithTop W) ≤ dc + (ed.weight : WithTop W) :=
      add_nonneg h0dc hwc
    have hvcur : v ≠ current := by
      intro hceq
      subst hceq
      rw [hr.curDist] at hdv0
      rw [← Option.some.inj hdv0] at halt
      exact absurd halt (not_lt.mpr hdcle)
    have hvstart : v ≠ start := by
      intro hceq
      subst hceq
      rw [hr.startZero] at hdv0
      rw [← Option.some.inj hdv0] at halt
      exact absurd halt (not_lt.mpr h0alt)
    have hvfin : ¬ Finalized g st v := by
      intro hfin
      have hle := (hr.minFinal v dv0 hfin hdv0).1
      exact absurd halt (not_lt.mpr (le_trans hle hdcle))
    have hvheap : v ∈ BinaryHeap.nodesOf st.heap := by
      by_contra hcon
      exact hvfin ⟨hvin, hcon⟩
    have hfind : ∃ i, st.heap.findIdx? (fun e => e.node == v) = some i := by
      cases hf : st.heap.findIdx? (fun e => e.node == v) with
      | some i => exact ⟨i, rfl⟩
      | none =>
        obtain ⟨ev, hev, hevn⟩ := BinaryHeap.mem_nodesOf.mp hvheap
        have hff := findIdx?_none_spec _ _ hf ev hev
        rw [hevn] at hff
        simp at hff
    obtain ⟨i, hfi⟩ := hfind
    obtain ⟨hilen, hpi⟩ := BinaryHeap.findIdx?_some_spec _ _ i hfi
    have hinode : st.heap[i].node = v := by simpa using hpi
    have hidist : st.heap[i].distance = dv0 := by
      have hsync := hr.sync st.heap[i] (List.getElem_mem hilen)
      rw [hinode, hdv0] at hsync
      exact (Option.some.inj hsync).symm
    have hupd : BinaryHeap.updateDistance st.heap v
        (dc + (ed.weight : WithTop W)) =
        BinaryHeap.bubbleUp
          (st.heap.set i ⟨dc + (ed.weight : WithTop W), v⟩) i := by
      have hh : st.heap[i]? = some st.heap[i] := List.getElem?_eq_getElem hilen
      rw [BinaryHeap.updateDistance, hfi]
      change (match st.heap[i]? with
        | some e =>
          if dc + (ed.weight : WithTop W) < e.distance then
            BinaryHeap.bubbleUp
              (st.heap.set i ⟨dc + (ed.weight : WithTop W), v⟩) i
          else st.heap
        | none => st.heap) = _
      rw [hh]
      show (if dc + (ed.weight : WithTop W) < st.heap[i].distance then
          BinaryHeap.bubbleUp
            (st.heap.set i ⟨dc + (ed.weight : WithTop W), v⟩) i
        else st.heap) = _
      rw [if_pos (by rw [hidist]; exact halt)]
    have hperm2 := BinaryHeap.bubbleUp_perm
      (st.heap.set i ⟨dc + (ed.weight : WithTop W), v⟩) i
    have hnOf : BinaryHeap.nodesOf
        (st.heap.set i ⟨dc + (ed.weight : WithTop W), v⟩) =
        BinaryHeap.nodesOf st.heap :=
      BinaryHeap.nodesOf_set_self _ i hilen _ v hinode
    have hmemiff : ∀ u, (u ∈ BinaryHeap.nodesOf (BinaryHeap.updateDistance
        st.heap v (dc + (ed.weight : WithTop W)))) ↔
        u ∈ BinaryHeap.nodesOf st.heap := by
      intro u
      rw [hupd, BinaryHeap.nodesOf, ← hnOf, BinaryHeap.nodesOf]
      exact (hperm2.map _).mem_iff
    have hmemchar : ∀ e2, e2 ∈ BinaryHeap.updateDistance st.heap v
        (dc + (ed.weight : WithTop W)) →
        e2 = ⟨dc + (ed.weight : WithTop W), v⟩ ∨
          (e2 ∈ st.heap ∧ e2.node ≠ v) := by
      intro e2 he2
      rw [hupd] at he2
      rcases mem_set_cases _ i _ e2 (hperm2.subset he2) with heq | ⟨j, hj, hji, hjval⟩
      · left
        exact heq
      · right
        refine ⟨by rw [← hjval]; exact List.getElem_mem hj, ?_⟩
        rw [← hjval]
        intro hcon
        have hnd : (st.heap.map (fun e => e.node)).Nodup := hr.nodupN
        have hjm : j < (st.heap.map (fun e => e.node)).length := by simpa using hj
        have him : i < (st.heap.map (fun e => e.node)).length := by
          simpa using hilen
        have hvj : (st.heap.map (fun e => e.node))[j] = st.heap[j].node :=
          List.getElem_map _
        have hvi : (st.heap.map (fun e => e.node))[i] = st.heap[i].node :=
          List.getElem_map _
        have heq2 : (st.heap.map (fun e => e.node))[j] =
            (st.heap.map (fun e => e.node))[i] := by
          rw [hvj, hvi, hcon, hinode]
        exact hji (hnd.getElem_inj_iff.mp heq2)
    rw [hstep, if_pos halt]
    refine ⟨⟨hr.startIn, ?_, ?_, ?_, ?_, ?_, ?_, hr.curIn, ?_, ?_, ?_, ?_, ?_⟩,
      ?_, ?_, ?_⟩
    · -- sync
      intro e2 he2
      rcases hmemchar e2 he2 with heq | ⟨hmem, hne⟩
      · subst heq
        show JsMap.get? (JsMap.set st.dist v (dc + (ed.weight : WithTop W)))
          v = some (dc + (ed.weight : WithTop W))
        exact JsMap.get?_set_self _ _ _
      · show JsMap.get? (JsMap.set st.dist v (dc + (ed.weight : WithTop W)))
          e2.node = some e2.distance
        rw [JsMap.get?_set_ne _ _ _ _ (Ne.symm hne)]
        exact hr.sync e2 hmem
    · -- nodupN
      show (BinaryHeap.nodesOf (BinaryHeap.updateDistance st.heap v
        (dc + (ed.weight : WithTop W)))).Nodup
      rw [hupd]
      have hp3 : (BinaryHeap.nodesOf (BinaryHeap.bubbleUp
          (st.heap.set i ⟨dc + (ed.weight : WithTop W), v⟩) i)).Perm
          (BinaryHeap.nodesOf st.heap) := by
        rw [← hnOf]
        exact hperm2.map _
      exact hp3.nodup_iff.mpr hr.nodupN
    · -- subN
      intro e2 he2
      rcases hmemchar e2 he2 with heq | ⟨hmem, hne⟩
      · subst heq
        exact hvin
      · exact hr.subN e2 hmem
    · -- distKeys
      intro u
      show (JsMap.get? (JsMap.set st.dist v (dc + (ed.weight : WithTop W)))
        u).isSome = JsMap.hasKey g.nodes u
      by_cases huv : u = v
      · subst huv
        rw [JsMap.get?_set_self, hvin]
        rfl
      · rw [JsMap.get?_set_ne _ _ _ _ (Ne.symm huv)]
        exact hr.distKeys u
    · -- nonnegD
      intro u d hd
      by_cases huv : u = v
      · subst huv
        rw [show JsMap.get? (JsMap.set st.dist u
            (dc + (ed.weight : WithTop W))) u =
            some (dc + (ed.weight : WithTop W)) from JsMap.get?_set_self _ _ _] at hd
        rw [← Option.some.inj hd]
        exact h0alt
      · rw [show JsMap.get? (JsMap.set st.dist v
            (dc + (ed.weight : WithTop W))) u = JsMap.get? st.dist u from
            JsMap.get?_set_ne _ _ _ _ (Ne.symm huv)] at hd
        exact hr.nonnegD u d hd
    · -- startZero
      show JsMap.get? (JsMap.set st.dist v (dc + (ed.weight : WithTop W)))
        start = some 0
      rw [JsMap.get?_set_ne _ _ _ _ hvstart]
      exact hr.startZero
    · -- curDist
      show JsMap.get? (JsMap.set st.dist v (dc + (ed.weight : WithTop W)))
        current = some dc
      rw [JsMap.get?_set_ne _ _ _ _ hvcur]
      exact hr.curDist
    · -- curNotHeap
      show current ∉ BinaryHeap.nodesOf (BinaryHeap.updateDistance st.heap v
        (dc + (ed.weight : WithTop W)))
      rw [hmemiff current]
      exact hr.curNotHeap
    · -- ordered
      show BinaryHeap.HeapOrdered (BinaryHeap.updateDistance st.heap v
        (dc + (ed.weight : WithTop W)))
      exact BinaryHeap.updateDistance_heapOrdered _ _ _ hr.ordered
    · -- frontierOld
      intro u hfin hune v2 e2 hedge
      have hfin0 : Finalized g st u := ⟨hfin.1, fun hcon => hfin.2 ((hmemiff u).mpr hcon)⟩
      obtain ⟨du, dv2, hdu, hdv2, hle⟩ := hr.frontierOld u hfin0 hune v2 e2 hedge
      have huv : u ≠ v := by
        intro hceq
        subst hceq
        exact hvfin hfin0
      refine ⟨du, ?_⟩
      by_cases hv2 : v2 = v
      · subst hv2
        refine ⟨dc + (ed.weight : WithTop W), ?_, ?_, ?_⟩
        · show JsMap.get? (JsMap.set st.dist v2
            (dc + (ed.weight : WithTop W))) u = some du
          rw [JsMap.get?_set_ne _ _ _ _ (Ne.symm huv)]
          exact hdu
        · show JsMap.get? (JsMap.set st.dist v2
            (dc + (ed.weight : WithTop W))) v2 = some _
          exact JsMap.get?_set_self _ _ _
        · have hdveq : dv2 = dv0 := by
            rw [hdv0] at hdv2
            exact (Option.some.inj hdv2).symm
          rw [hdveq] at hle
          exact le_trans (le_of_lt halt) hle
      · refine ⟨dv2, ?_, ?_, hle⟩
        · show JsMap.get? (JsMap.set st.dist v
            (dc + (ed.weight : WithTop W))) u = some du
          rw [JsMap.get?_set_ne _ _ _ _ (Ne.symm huv)]
          exact hdu
        · show JsMap.get? (JsMap.set st.dist v
            (dc + (ed.weight : WithTop W))) v2 = some dv2
          rw [JsMap.get?_set_ne _ _ _ _ (fun hc => hv2 hc.symm)]
          exact hdv2
    · -- minFinal
      intro u du hfin hdu
      have hfin0 : Finalized g st u := ⟨hfin.1, fun hcon => hfin.2 ((hmemiff u).mpr hcon)⟩
      have huv : u ≠ v := by
        intro hceq
        subst hceq
        exact hvfin hfin0
      have hdu0 : JsMap.get? st.dist u = some du := by
        rw [show JsMap.get? (JsMap.set st.dist v
            (dc + (ed.weight : WithTop W))) u = JsMap.get? st.dist u from
            JsMap.get?_set_ne _ _ _ _ (Ne.symm huv)] at hdu
        exact hdu
      obtain ⟨hledc, hall⟩ := hr.minFinal u du hfin0 hdu0
      refine ⟨hledc, ?_⟩
      intro e2 he2
      rcases hmemchar e2 he2 with heq | ⟨hmem, hne⟩
      · subst heq
        exact le_trans hledc hdcle
      · exact hall e2 hmem
    · -- pointwise decrease
      intro u d2 h2
      by_cases huv : u = v
      · subst huv
        rw [show JsMap.get? (JsMap.set st.dist u
            (dc + (ed.weight : WithTop W))) u =
            some (dc + (ed.weight : WithTop W)) from JsMap.get?_set_self _ _ _] at h2
        exact ⟨dv0, hdv0, by rw [← Option.some.inj h2]; exact le_of_lt halt⟩
      · rw [show JsMap.get? (JsMap.set st.dist v
            (dc + (ed.weight : WithTop W))) u = JsMap.get? st.dist u from
            JsMap.get?_set_ne _ _ _ _ (Ne.symm huv)] at h2
        exact ⟨d2, h2, le_refl _⟩
    · -- bound at the relaxed target
      refine ⟨dc + (ed.weight : WithTop W), ?_, le_refl _⟩
      show JsMap.get? (JsMap.set st.dist v (dc + (ed.weight : WithTop W)))
        v = some _
      exact JsMap.get?_set_self _ _ _
    · -- node-set preservation
      exact hmemiff

end Graph

namespace Graph

variable {W α : Type} [LinearOrderedAddCommMonoid W]

theorem relaxFold_preserve (g : Graph W α) (start current : String)
    (dc : WithTop W) :
    ∀ (l : List (String × Edge W)) (st : DState W),
      RInv g start current dc st →
      (∀ q ∈ l, JsMap.hasKey g.nodes q.1 = true ∧ (0 : W) ≤ q.2.weight) →
      RInv g start current dc (l.foldl (relaxStep current) st) ∧
        (∀ u d2,
          JsMap.get? (l.foldl (relaxStep current) st).dist u = some d2 →
          ∃ d1, JsMap.get? st.dist u = some d1 ∧ d2 ≤ d1) ∧
        (∀ q ∈ l, ∃ dv,
          JsMap.get? (l.foldl (relaxStep current) st).dist q.1 = some dv ∧
          dv ≤ dc + (q.2.weight : WithTop W)) ∧
        (∀ u, u ∈ BinaryHeap.nodesOf (l.foldl (relaxStep current) st).heap ↔
          u ∈ BinaryHeap.nodesOf st.heap) := by
  intro l
  induction l with
  | nil =>
    intro st hr hl
    exact ⟨hr, fun u d2 h2 => ⟨d2, h2, le_refl _⟩, by simp, fun u => Iff.rfl⟩
  | cons q l2 ih =>
    intro st hr hl
    obtain ⟨qv, qe⟩ := q
    have hq := hl (qv, qe) (List.mem_cons_self _ _)
    obtain ⟨hS, hSdec, hSbound, hSmem⟩ :=
      relaxStep_preserve g start current dc st hr qv qe hq.1 hq.2
    rw [List.foldl_cons]
    obtain ⟨hI, hIdec, hIbound, hImem⟩ :=
      ih (relaxStep current st (qv, qe)) hS
        (fun q' hq' => hl q' (List.mem_cons_of_mem _ hq'))
    refine ⟨hI, ?_, ?_, ?_⟩
    · intro u d2 h2
      obtain ⟨d1, hd1, hle1⟩ := hIdec u d2 h2
      obtain ⟨d0, hd0, hle0⟩ := hSdec u d1 hd1
      exact ⟨d0, hd0, le_trans hle1 hle0⟩
    · intro q' hq'
      rcases List.mem_cons.mp hq' with hq1 | hq2
      · subst hq1
        obtain ⟨dv, hdv, hdvle⟩ := hSbound
        have hsome : (JsMap.get? (l2.foldl (relaxStep current)
            (relaxStep current st (qv, qe))).dist qv).isSome = true := by
          rw [hI.distKeys, hq.1]
        obtain ⟨dvf, hdvf⟩ := Option.isSome_iff_exists.mp hsome
        obtain ⟨d1, hd1, hle1⟩ := hIdec qv dvf hdvf
        have hd1eq : d1 = dv := by
          rw [hdv] at hd1
          exact (Option.some.inj hd1).symm
        exact ⟨dvf, hdvf, le_trans hle1 (hd1eq ▸ hdvle)⟩
      · exact hIbound q' hq2
    · intro u
      exact (hImem u).trans (hSmem u)

end Graph

namespace Graph

variable {W α : Type} [LinearOrderedAddCommMonoid W]

theorem DInv_of_RInv (g : Graph W α) (start current : String) (dc : WithTop W)
    (st : DState W) (hr : RInv g start current dc st)
    (hfront : ∀ v e, edgeAt g current v = some e →
      ∃ dv, JsMap.get? st.dist v = some dv ∧
        dv ≤ dc + (e.weight : WithTop W)) :
    DInv g start st := by
  refine ⟨hr.startIn, hr.sync, hr.nodupN, hr.subN, hr.distKeys, hr.nonnegD,
    hr.startZero, ?_, ?_⟩
  · intro u hfin v e hedge
    by_cases huc : u = current
    · subst huc
      obtain ⟨dv, hdv, hdvle⟩ := hfront v e hedge
      exact ⟨dc, dv, hr.curDist, hdv, hdvle⟩
    · exact hr.frontierOld u hfin huc v e hedge
  · intro u du hfin hdu
    exact (hr.minFinal u du hfin hdu).2

theorem dijkstra_iteration (g : Graph W α) (start : String) (hwf : WFG g)
    (st : DState W) (hd : DInv g start st)
    (ho : BinaryHeap.HeapOrdered st.heap)
    (current : String) (heap1 : List (Entry W))
    (hx : BinaryHeap.extractMin st.heap = some (current, heap1)) :
    DInv g start (relaxNeighbors g current { st with heap := heap1 }) ∧
      BinaryHeap.HeapOrdered
        (relaxNeighbors g current { st with heap := heap1 }).heap := by
  obtain ⟨e0, rest, hheap, hcur, hperm, hkey0, hlen⟩ :=
    BinaryHeap.extractMin_spec st.heap current heap1 hx
  have he0mem : e0 ∈ st.heap := by
    rw [hheap]
    exact List.mem_cons_self _ _
  have hmemtr : ∀ e, e ∈ heap1 → e ∈ st.heap := fun e he =>
    hperm.mem_iff.mpr (List.mem_cons_of_mem _ he)
  have hnodescons : (BinaryHeap.nodesOf st.heap).Perm
      (e0.node :: BinaryHeap.nodesOf heap1) := by
    have h1 := hperm.map (fun e => e.node)
    simpa [BinaryHeap.nodesOf] using h1
  have hnd1 : (e0.node :: BinaryHeap.nodesOf heap1).Nodup :=
    hnodescons.nodup_iff.mp hd.nodupN
  have hcur_notin : e0.node ∉ BinaryHeap.nodesOf heap1 :=
    (List.nodup_cons.mp hnd1).1
  have hfin_tr : ∀ u, u ≠ e0.node → u ∉ BinaryHeap.nodesOf heap1 →
      u ∉ BinaryHeap.nodesOf st.heap := by
    intro u hne hnin hcon
    rcases List.mem_cons.mp (hnodescons.mem_iff.mp hcon) with h1 | h2
    · exact hne h1
    · exact hnin h2
  have hcurdist : JsMap.get? st.dist current = some e0.distance := by
    rw [hcur]
    exact hd.sync e0 he0mem
  have hr1 : RInv g start current e0.distance { st with heap := heap1 } := by
    refine ⟨hd.startIn, ?_, ?_, ?_, hd.distKeys, hd.nonnegD, hd.startZero,
      ?_, hcurdist, ?_, ?_, ?_, ?_⟩
    · intro e he
      exact hd.sync e (hmemtr e he)
    · exact (List.nodup_cons.mp hnd1).2
    · intro e he
      exact hd.subN e (hmemtr e he)
    · rw [hcur]
      exact hd.subN e0 he0mem
    · rw [hcur]
      exact hcur_notin
    · exact BinaryHeap.extractMin_heapOrdered st.heap current heap1 ho hx
    · intro u hfin hune v e hedge
      have hufin : Finalized g st u :=
        ⟨hfin.1, hfin_tr u (by rw [← hcur]; exact hune) hfin.2⟩
      exact hd.frontier u hufin v e hedge
    · intro u du hfin hdu
      have hdu0 : JsMap.get? st.dist u = some du := hdu
      by_cases huc : u = current
      · subst huc
        have hdueq : du = e0.distance := by
          rw [hcurdist] at hdu0
          exact (Option.some.inj hdu0).symm
        refine ⟨le_of_eq hdueq, ?_⟩
        intro e he
        obtain ⟨j, hj, hjval⟩ := List.mem_iff_getElem.mp (hmemtr e he)
        have hroot := BinaryHeap.heapOrdered_root_le st.heap ho j hj
        have hkeyj : BinaryHeap.keyAt st.heap j = e.distance := by
          rw [BinaryHeap.keyAt, List.getElem?_eq_getElem hj, hjval]
        rw [hkey0, hkeyj] at hroot
        rw [hdueq]
        exact hroot
      · have hufin : Finalized g st u :=
          ⟨hfin.1, hfin_tr u (by rw [← hcur]; exact huc) hfin.2⟩
        have hall := hd.minFinal u du hufin hdu0
        refine ⟨?_, fun e he => hall e (hmemtr e he)⟩
        exact hall e0 he0mem
  cases hnb : JsMap.get? g.edges current with
  | none =>
    have heq : relaxNeighbors g current { st with heap := heap1 } =
        { st with heap := heap1 } := by
      rw [relaxNeighbors, hnb]
    rw [heq]
    refine ⟨DInv_of_RInv g start current e0.distance _ hr1 ?_, hr1.ordered⟩
    intro v e hedge
    rw [edgeAt, hnb] at hedge
    exact Option.noConfusion hedge
  | some nbrs =>
    have heq : relaxNeighbors g current { st with heap := heap1 } =
        nbrs.foldl (relaxStep current) { st with heap := heap1 } := by
      rw [relaxNeighbors, hnb]
    rw [heq]
    have hmemedges : (current, nbrs) ∈ g.edges := JsMap.get?_mem hnb
    have hprops : ∀ q ∈ nbrs, JsMap.hasKey g.nodes q.1 = true ∧
        (0 : W) ≤ q.2.weight := fun q hq =>
      ⟨hwf.consistentTgt _ hmemedges q hq, hwf.nonnegW _ hmemedges q hq⟩
    obtain ⟨hI, hIdec, hIbound, hImem⟩ :=
      relaxFold_preserve g start current e0.distance nbrs _ hr1 hprops
    refine ⟨DInv_of_RInv g start current e0.distance _ hI ?_, hI.ordered⟩
    intro v e hedge
    rw [edgeAt, hnb] at hedge
    exact hIbound (v, e) (JsMap.get?_mem hedge)

end Graph

namespace Graph

variable {W α : Type} [LinearOrderedAddCommMonoid W]

theorem reach_root_bound (g : Graph W α) (start : String) (hwf : WFG g)
    (st : DState W) (hd : DInv g start st)
    (ho : BinaryHeap.HeapOrdered st.heap)
    (e0 : Entry W) (rest : List (Entry W)) (hheap : st.heap = e0 :: rest) :
    ∀ (p : List String) (u : String) (du c : WithTop W),
      Finalized g st u → JsMap.get? st.dist u = some du →
      chainCost g u p = some c → p.getLastD u = e0.node →
      e0.distance ≤ du + c := by
  intro p
  induction p with
  | nil =>
    intro u du c hfin hdu hc hlast
    exfalso
    apply hfin.2
    have hu : u = e0.node := by simpa using hlast
    rw [hu, hheap]
    exact BinaryHeap.mem_nodesOf.mpr ⟨e0, List.mem_cons_self _ _, rfl⟩
  | cons v p2 ih =>
    intro u du c hfin hdu hc hlast
    rw [chainCost] at hc
    cases hed : edgeAt g u v with
    | none =>
      rw [hed] at hc
      exact Option.noConfusion hc
    | some ed =>
      rw [hed] at hc
      rcases Option.map_eq_some'.mp hc with ⟨c2, hc2, hsum⟩
      have hlast2 : p2.getLastD v = e0.node := by
        rw [List.getLastD_cons] at hlast
        exact hlast
      obtain ⟨du', dv, hdu', hdv, hrel⟩ := hd.frontier u hfin v ed hed
      have hdueq : du' = du := by
        rw [hdu] at hdu'
        exact (Option.some.inj hdu').symm
      rw [hdueq] at hrel
      by_cases hvfin : Finalized g st v
      · have hih := ih v dv c2 hvfin hdv hc2 hlast2
        calc e0.distance ≤ dv + c2 := hih
          _ ≤ (du + (ed.weight : WithTop W)) + c2 := add_le_add_right hrel c2
          _ = du + ((ed.weight : WithTop W) + c2) := add_assoc _ _ _
          _ = du + c := by rw [hsum]
      · have hvin : JsMap.hasKey g.nodes v = true := (edgeAt_props hwf hed).2.1
        have hvheap : v ∈ BinaryHeap.nodesOf st.heap := by
          by_contra hcon
          exact hvfin ⟨hvin, hcon⟩
        obtain ⟨ev, hev, hevn⟩ := BinaryHeap.mem_nodesOf.mp hvheap
        have hsync := hd.sync ev hev
        rw [hevn, hdv] at hsync
        have hevd : ev.distance = dv := (Option.some.inj hsync).symm
        obtain ⟨j, hj, hjval⟩ := List.mem_iff_getElem.mp hev
        have hroot := BinaryHeap.heapOrdered_root_le st.heap ho j hj
        have hkey0 : BinaryHeap.keyAt st.heap 0 = e0.distance := by
          rw [hheap, BinaryHeap.keyAt]
          simp
        have hkeyj : BinaryHeap.keyAt st.heap j = dv := by
          rw [BinaryHeap.keyAt, List.getElem?_eq_getElem hj, hjval]
          exact hevd
        rw [hkey0, hkeyj] at hroot
        have hc2nn : (0 : WithTop W) ≤ c2 := chainCost_nonneg hwf p2 v c2 hc2
        calc e0.distance ≤ dv := hroot
          _ ≤ du + (ed.weight : WithTop W) := hrel
          _ ≤ (du + (ed.weight : WithTop W)) + c2 := le_add_of_nonneg_right hc2nn
          _ = du + ((ed.weight : WithTop W) + c2) := add_assoc _ _ _
          _ = du + c := by rw [hsum]

theorem extract_root_bound (g : Graph W α) (start : String) (hwf : WFG g)
    (st : DState W) (hd : DInv g start st)
    (ho : BinaryHeap.HeapOrdered st.heap)
    (e0 : Entry W) (rest : List (Entry W)) (hheap : st.heap = e0 :: rest) :
    ∀ p c, chainCost g start p = some c → p.getLastD start = e0.node →
      e0.distance ≤ c := by
  intro p c hc hlast
  by_cases hsfin : Finalized g st start
  · have hb := reach_root_bound g start hwf st hd ho e0 rest hheap p start 0 c
      hsfin hd.startZero hc hlast
    rwa [zero_add] at hb
  · have hsheap : start ∈ BinaryHeap.nodesOf st.heap := by
      by_contra hcon
      exact hsfin ⟨hd.startIn, hcon⟩
    obtain ⟨es, hes, hesn⟩ := BinaryHeap.mem_nodesOf.mp hsheap
    have hsync := hd.sync es hes
    rw [hesn, hd.startZero] at hsync
    have hesd : es.distance = 0 := (Option.some.inj hsync).symm
    obtain ⟨j, hj, hjval⟩ := List.mem_iff_getElem.mp hes
    have hroot := BinaryHeap.heapOrdered_root_le st.heap ho j hj
    have hkey0 : BinaryHeap.keyAt st.heap 0 = e0.distance := by
      rw [hheap, BinaryHeap.keyAt]
      simp
    have hkeyj : BinaryHeap.keyAt st.heap j = 0 := by
      rw [BinaryHeap.keyAt, List.getElem?_eq_getElem hj, hjval]
      exact hesd
    rw [hkey0, hkeyj] at hroot
    exact le_trans hroot (chainCost_nonneg hwf p start c hc)

theorem dijkstraLoop_final_bound (g : Graph W α) (start endNode : String)
    (hwf : WFG g) (st : DState W) (hd : DInv g start st)
    (ho : BinaryHeap.HeapOrdered st.heap) (current : String)
    (heap1 : List (Entry W))
    (hx : BinaryHeap.extractMin st.heap = some (current, heap1))
    (hce : current = endNode) (d : WithTop W)
    (hdist : JsMap.get? st.dist endNode = some d)
    (p : List String) (c : WithTop W) (hc : chainCost g start p = some c)
    (hlast : p.getLastD start = endNode) : d ≤ c := by
  obtain ⟨e0, rest, hheap, hcur, -, -, -⟩ :=
    BinaryHeap.extractMin_spec st.heap current heap1 hx
  have hnode : endNode = e0.node := by rw [← hce, hcur]
  have hsync : JsMap.get? st.dist endNode = some e0.distance := by
    rw [hnode]
    exact hd.sync e0 (by rw [hheap]; exact List.mem_cons_self _ _)
  have hdeq : d = e0.distance := by
    rw [hdist] at hsync
    exact Option.some.inj hsync
  rw [hdeq]
  exact extract_root_bound g start hwf st hd ho e0 rest hheap p c hc
    (by rw [← hnode]; exact hlast)

theorem dijkstraLoop_extract_some (g : Graph W α) (endNode : String)
    (fuel : Nat) (st : DState W) (current : String) (heap1 : List (Entry W))
    (hx : BinaryHeap.extractMin st.heap = some (current, heap1)) :
    dijkstraLoop g endNode fuel st =
      if current = endNode then
        .ok { path := buildPath st.prev (st.prev.length + 1) (some endNode) [],
              distance := JsMap.get? st.dist endNode }
      else
        match fuel with
        | 0 => .error .noPathFound
        | fuel2 + 1 =>
          dijkstraLoop g endNode fuel2
            (relaxNeighbors g current { st with heap := heap1 }) := by
  rw [dijkstraLoop_eq, hx]

theorem dijkstraLoop_optimal (g : Graph W α) (start endNode : String)
    (hwf : WFG g) :
    ∀ (fuel : Nat) (st : DState W), DInv g start st →
      BinaryHeap.HeapOrdered st.heap →
      ∀ r, dijkstraLoop g endNode fuel st = .ok r →
      ∀ d, r.distance = some d →
      ∀ p c, chainCost g start p = some c → p.getLastD start = endNode →
      d ≤ c := by
  intro fuel
  induction fuel with
  | zero =>
    intro st hd ho r hok d hdist p c hc hlast
    cases hx : BinaryHeap.extractMin st.heap with
    | none =>
      rw [dijkstraLoop_eq, hx] at hok
      exact Except.noConfusion hok
    | some pr =>
      obtain ⟨current, heap1⟩ := pr
      rw [dijkstraLoop_extract_some g endNode 0 st current heap1 hx] at hok
      by_cases hce : current = endNode
      · rw [if_pos hce] at hok
        have hQ : JsMap.get? st.dist endNode = some d := by
          rw [← Except.ok.inj hok] at hdist
          exact hdist
        exact dijkstraLoop_final_bound g start endNode hwf st hd ho current
          heap1 hx hce d hQ p c hc hlast
      · rw [if_neg hce] at hok
        exact Except.noConfusion hok
  | succ fuel ih =>
    intro st hd ho r hok d hdist p c hc hlast
    cases hx : BinaryHeap.extractMin st.heap with
    | none =>
      rw [dijkstraLoop_eq, hx] at hok
      exact Except.noConfusion hok
    | some pr =>
      obtain ⟨current, heap1⟩ := pr
      rw [dijkstraLoop_extract_some g endNode (fuel + 1) st current heap1 hx] at hok
      by_cases hce : current = endNode
      · rw [if_pos hce] at hok
        have hQ : JsMap.get? st.dist endNode = some d := by
          rw [← Except.ok.inj hok] at hdist
          exact hdist
        exact dijkstraLoop_final_bound g start endNode hwf st hd ho current
          heap1 hx hce d hQ p c hc hlast
      · rw [if_neg hce] at hok
        obtain ⟨hd2, ho2⟩ := dijkstra_iteration g start hwf st hd ho current
          heap1 hx
        exact ih _ hd2 ho2 r hok d hdist p c hc hlast

end Graph

/-- C4: for every graph with non-negative edge weights and a consistent
adjacency index (together with the JS-`Map` distinct-key representation
invariant), if `shortestPath(start, end)` returns a distance `d`, then `d`
is at most the total weight of every walk from `start` to `end` in the
graph — the returned distance is optimal. -/
theorem c4_shortestPath_distance_optimal {W α : Type}
    [LinearOrderedAddCommMonoid W] (g : Graph W α) (start endNode : String)
    (hwf : Graph.WFG g) (r : PathResult W)
    (hok : Graph.findShortestPath g start endNode = .ok r)
    (d : WithTop W) (hd : r.distance = some d)
    (p : List String) (c : WithTop W) (hc : Graph.chainCost g start p = some c)
    (hlast : p.getLastD start = endNode) : d ≤ c := by
  rw [Graph.findShortestPath] at hok
  by_cases hg : (!(JsMap.hasKey g.nodes start) ||
      !(JsMap.hasKey g.nodes endNode)) = true
  · rw [if_pos hg] at hok
    exact Except.noConfusion hok
  · rw [if_neg hg] at hok
    have hs : JsMap.hasKey g.nodes start = true := by
      by_contra hcon
      rw [Bool.not_eq_true] at hcon
      apply hg
      rw [hcon]
      rfl
    exact Graph.dijkstraLoop_optimal g start endNode hwf _ _
      (Graph.initState_DInv g start hwf hs)
      (Graph.initState_heap_ordered g start) r hok d hd p c hc hlast

/-- A three-node graph with a direct edge A→B(5) and a strictly cheaper
two-edge route A→C(2), C→B(1). -/
def gTri : Graph ℤ ℤ :=
  addEdgeD (addEdgeD (addEdgeD (Graph.addNode (Graph.addNode (Graph.addNode
    Graph.empty "A" 0) "B" 0) "C" 0) "A" "B" 5) "A" "C" 2) "C" "B" 1

/-- C4 witness: on `gTri`, Dijkstra returns distance 3 for A→B, and the
optimality theorem bounds it by the cost 5 of the alternative direct
walk `[A, B]`. -/
theorem c4_optimal_witness : ((3 : ℤ) : WithTop ℤ) ≤ ((5 : ℤ) : WithTop ℤ) :=
  c4_shortestPath_distance_optimal gTri "A" "B"
    ⟨by decide, by decide, by decide, by decide, by decide, by decide⟩
    ⟨["A", "C", "B"], some ((3 : ℤ) : WithTop ℤ)⟩ rfl
    ((3 : ℤ) : WithTop ℤ) rfl ["B"] ((5 : ℤ) : WithTop ℤ) rfl rfl
